import Mathlib

/-!
Verification of the tag-picker hierarchy and selection engine.

The definitions below are shallow embeddings of the TypeScript sources
(`src/app/src/utils.ts` and the application component): each tag carries a
codename, two human-readable names, an id and an ordered list of parent
codenames.  The tree builder `createTagTree` mutates shared node objects held
in a codename-keyed map; we model that final object graph by the root list
together with three finite maps (children, level, isRoot) keyed by codename,
built by a left fold that mirrors the single `forEach` pass of the source.
-/

structure Tag where
  codename : String
  name : String
  displayName : String
  id : String
  parentTags : List String
deriving DecidableEq, Repr

/-- `tagMap.has p` over the map seeded with every tag of the input
(`utils.ts` lines 50-57 populate the map before the hierarchy pass). -/
def hasCodename (tags : List Tag) (c : String) : Bool :=
  tags.any (fun t => t.codename = c)

/-- The parent codename a tag attaches to: the first entry of
`parent_tag.value` present in the map (`parents.find(p => tagMap.has(p))`,
`utils.ts` line 69).  `List.find?` on the empty list is `none`, which also
covers the `parents.length === 0` branch of the source: in both cases the
node is appended to the root list. -/
def resolveParent (tags : List Tag) (t : Tag) : Option String :=
  t.parentTags.find? (fun p => hasCodename tags p)

/-- The object graph built by `createTagTree`: the `rootTags` list plus the
per-codename fields of the shared nodes (`children`, `level`, `isRoot`). -/
structure TreeForest where
  roots : List String
  children : String → List String
  level : String → Nat
  isRoot : String → Bool

/-- One iteration of the hierarchy pass (`utils.ts` lines 62-79): push the
node to the root list when no parent entry resolves, otherwise append it to
the resolved parent's children and set `level`/`isRoot`.  The level written
is the parent's level *at this point of the pass*, exactly as the mutable
source reads `parentNode.level` before assigning. -/
def buildStep (tags : List Tag) (st : TreeForest) (t : Tag) : TreeForest :=
  match resolveParent tags t with
  | none => { st with roots := st.roots ++ [t.codename] }
  | some p =>
      { st with
        children := fun c => if c = p then st.children c ++ [t.codename] else st.children c,
        level := fun c => if c = t.codename then st.level p + 1 else st.level c,
        isRoot := fun c => if c = t.codename then false else st.isRoot c }

/-- `createTagTree` (`utils.ts` lines 46-82): every node starts with empty
children, level 0 and `isRoot = true`, then the single pass runs in input
order. -/
def createTagTree (tags : List Tag) : TreeForest :=
  tags.foldl (buildStep tags)
    { roots := [], children := fun _ => [], level := fun _ => 0, isRoot := fun _ => true }

/-- Fuel-bounded pre-order traversal of a children graph
(`flattenTree`, `utils.ts` lines 91-99: emit the node, then recurse into its
children in order).  The JavaScript recursion is unbounded; on every graph
`createTagTree` builds from duplicate-free codenames, any reachable path
visits distinct codenames, so fuel `tags.length + 1` is never exhausted and
the model agrees with the source. -/
def preorder (ch : String → List String) : Nat → String → List String
  | 0, _ => []
  | fuel + 1, c => c :: (ch c).flatMap (preorder ch fuel)

/-- `flattenTree` applied to the forest returned by `createTagTree`. -/
def flattenTree (f : TreeForest) (fuel : Nat) : List String :=
  f.roots.flatMap (preorder f.children fuel)

/-- `flattenTree(createTagTree(tags))`, the flattened dropdown order. -/
def tagPickerFlatten (tags : List Tag) : List String :=
  flattenTree (createTagTree tags) (tags.length + 1)

section Characterization

variable (tags : List Tag)

theorem buildStep_roots (st : TreeForest) (t : Tag) :
    (buildStep tags st t).roots =
      st.roots ++ (if resolveParent tags t = none then [t.codename] else []) := by
  unfold buildStep
  cases h : resolveParent tags t <;> simp [h]

theorem buildStep_children (st : TreeForest) (t : Tag) (p : String) :
    (buildStep tags st t).children p =
      st.children p ++ (if resolveParent tags t = some p then [t.codename] else []) := by
  unfold buildStep
  cases h : resolveParent tags t with
  | none => simp
  | some q =>
      by_cases hpq : p = q <;> simp [hpq, eq_comm]

theorem foldl_roots (l : List Tag) (st : TreeForest) :
    (l.foldl (buildStep tags) st).roots =
      st.roots ++ (l.filter (fun t => resolveParent tags t = none)).map (·.codename) := by
  induction l generalizing st with
  | nil => simp
  | cons t l ih =>
      simp only [List.foldl_cons, ih, buildStep_roots]
      by_cases h : resolveParent tags t = none <;>
        simp [h, List.filter_cons, List.append_assoc]

theorem foldl_children (l : List Tag) (st : TreeForest) (p : String) :
    (l.foldl (buildStep tags) st).children p =
      st.children p ++ (l.filter (fun t => resolveParent tags t = some p)).map (·.codename) := by
  induction l generalizing st with
  | nil => simp
  | cons t l ih =>
      simp only [List.foldl_cons, ih, buildStep_children]
      by_cases h : resolveParent tags t = some p <;>
        simp [h, List.filter_cons, List.append_assoc]

/-- The root list of the built forest is exactly the codenames of the tags
with no resolvable parent entry, in input order. -/
theorem createTagTree_roots :
    (createTagTree tags).roots =
      (tags.filter (fun t => resolveParent tags t = none)).map (·.codename) := by
  unfold createTagTree
  rw [foldl_roots]
  simp

/-- The children list of each codename is exactly the codenames of the tags
that resolved it as first matching parent, in input order. -/
theorem createTagTree_children (p : String) :
    (createTagTree tags).children p =
      (tags.filter (fun t => resolveParent tags t = some p)).map (·.codename) := by
  unfold createTagTree
  rw [foldl_children]
  simp

end Characterization

/-! ### Ancestor chains of the built forest

With duplicate-free codenames every codename names at most one tag, so the
attachment produced by the hierarchy pass is a partial function from a
codename to its structural parent.  `iterPar` walks that function; a chain
that reaches a root ends in `none`. -/

def tagOf (tags : List Tag) (c : String) : Option Tag :=
  tags.find? (fun t => t.codename = c)

/-- Structural parent of a codename in the forest built from `tags`. -/
def par (tags : List Tag) (c : String) : Option String :=
  match tagOf tags c with
  | some t => resolveParent tags t
  | none => none

/-- `k`-fold iteration of `par`. -/
def iterPar (tags : List Tag) : Nat → String → Option String
  | 0, c => some c
  | k + 1, c =>
      match par tags c with
      | some p => iterPar tags k p
      | none => none

@[simp] theorem iterPar_zero (tags : List Tag) (c : String) :
    iterPar tags 0 c = some c := rfl

theorem iterPar_succ (tags : List Tag) (k : Nat) (c : String) :
    iterPar tags (k + 1) c =
      match par tags c with
      | some p => iterPar tags k p
      | none => none := rfl

theorem iterPar_add (tags : List Tag) (a b : Nat) (c : String) :
    iterPar tags (a + b) c = (iterPar tags a c).bind (iterPar tags b) := by
  induction a generalizing c with
  | zero => simp
  | succ a ih =>
      have : a + 1 + b = (a + b) + 1 := by omega
      rw [this, iterPar_succ, iterPar_succ]
      cases h : par tags c with
      | none => simp
      | some p => simp [ih]

theorem iterPar_none_stable (tags : List Tag) {n m : Nat} {c : String}
    (h : iterPar tags n c = none) (hnm : n ≤ m) : iterPar tags m c = none := by
  have : m = n + (m - n) := by omega
  rw [this, iterPar_add, h]
  rfl

theorem iterPar_periodic (tags : List Tag) {d : Nat} {x : String}
    (h : iterPar tags d x = some x) (k : Nat) : iterPar tags (k * d) x = some x := by
  induction k with
  | zero => simp
  | succ k ih =>
      have : (k + 1) * d = k * d + d := by ring
      rw [this, iterPar_add, ih]
      simpa using h

/-- On a chain that terminates, the iterates are injective: a repeat would
close a cycle and the chain could never reach `none`. -/
theorem iterPar_inj (tags : List Tag) {N i j : Nat} {c x : String}
    (hG : iterPar tags N c = none)
    (hi : iterPar tags i c = some x) (hj : iterPar tags j c = some x) : i = j := by
  rcases Nat.le_total i j with hle | hle
  · by_contra hne
    have hd : 0 < j - i := by omega
    have hx : iterPar tags (j - i) x = some x := by
      have := iterPar_add tags i (j - i) c
      rw [Nat.add_sub_cancel' hle, hj, hi] at this
      exact this.symm
    have hloop : iterPar tags (i + N * (j - i)) c = some x := by
      rw [iterPar_add, hi]
      simpa using iterPar_periodic tags hx N
    have hbig : N ≤ i + N * (j - i) := by
      have : N * 1 ≤ N * (j - i) := Nat.mul_le_mul_left N hd
      omega
    rw [iterPar_none_stable tags hG hbig] at hloop
    exact Option.noConfusion hloop
  · by_contra hne
    have hd : 0 < i - j := by omega
    have hx : iterPar tags (i - j) x = some x := by
      have := iterPar_add tags j (i - j) c
      rw [Nat.add_sub_cancel' hle, hi, hj] at this
      exact this.symm
    have hloop : iterPar tags (j + N * (i - j)) c = some x := by
      rw [iterPar_add, hj]
      simpa using iterPar_periodic tags hx N
    have hbig : N ≤ j + N * (i - j) := by
      have : N * 1 ≤ N * (i - j) := Nat.mul_le_mul_left N hd
      omega
    rw [iterPar_none_stable tags hG hbig] at hloop
    exact Option.noConfusion hloop

theorem hasCodename_iff (tags : List Tag) (c : String) :
    hasCodename tags c = true ↔ c ∈ tags.map (·.codename) := by
  simp only [hasCodename, List.any_eq_true, decide_eq_true_eq, List.mem_map]

theorem par_hasCodename (tags : List Tag) {c p : String}
    (h : par tags c = some p) : hasCodename tags p = true := by
  unfold par at h
  cases ht : tagOf tags c with
  | none => rw [ht] at h; exact Option.noConfusion h
  | some t =>
      rw [ht] at h
      exact List.find?_some h

theorem tagOf_eq_some (tags : List Tag) {c : String} {t : Tag}
    (h : tagOf tags c = some t) : t ∈ tags ∧ t.codename = c := by
  refine ⟨List.mem_of_find?_eq_some h, ?_⟩
  have := List.find?_some h
  simpa using this

theorem tagOf_mem {tags : List Tag} (hN : (tags.map (·.codename)).Nodup)
    {t : Tag} (ht : t ∈ tags) : tagOf tags t.codename = some t := by
  induction tags with
  | nil => cases ht
  | cons u rest ih =>
      rw [List.map_cons, List.nodup_cons] at hN
      rcases List.mem_cons.mp ht with rfl | hmem
      · simp [tagOf, List.find?_cons]
      · have hne : u.codename ≠ t.codename := by
          intro he
          exact hN.1 (he ▸ List.mem_map.mpr ⟨t, hmem, rfl⟩)
        have hrec := ih hN.2 hmem
        simp only [tagOf, List.find?_cons] at hrec ⊢
        rw [show (decide (u.codename = t.codename)) = false by
          simpa using hne]
        exact hrec

theorem par_of_mem {tags : List Tag} (hN : (tags.map (·.codename)).Nodup)
    {t : Tag} (ht : t ∈ tags) : par tags t.codename = resolveParent tags t := by
  simp [par, tagOf_mem hN ht]

/-- A codename sits in the children list of `p` exactly when it names a tag
of the collection whose structural parent is `p`. -/
theorem mem_children_iff {tags : List Tag} (hN : (tags.map (·.codename)).Nodup)
    (c p : String) :
    c ∈ (createTagTree tags).children p ↔
      c ∈ tags.map (·.codename) ∧ par tags c = some p := by
  rw [createTagTree_children]
  constructor
  · intro h
    rcases List.mem_map.mp h with ⟨t, htf, rfl⟩
    rcases List.mem_filter.mp htf with ⟨htm, hres⟩
    have hres' : resolveParent tags t = some p := by simpa using hres
    exact ⟨List.mem_map.mpr ⟨t, htm, rfl⟩, (par_of_mem hN htm).trans hres'⟩
  · rintro ⟨hc, hp⟩
    rcases List.mem_map.mp hc with ⟨t, htm, rfl⟩
    rw [par_of_mem hN htm] at hp
    exact List.mem_map.mpr ⟨t, List.mem_filter.mpr ⟨htm, by simpa using hp⟩, rfl⟩

/-- A codename is a root of the built forest exactly when it names a tag of
the collection with no structural parent. -/
theorem mem_roots_iff {tags : List Tag} (hN : (tags.map (·.codename)).Nodup)
    (c : String) :
    c ∈ (createTagTree tags).roots ↔
      c ∈ tags.map (·.codename) ∧ par tags c = none := by
  rw [createTagTree_roots]
  constructor
  · intro h
    rcases List.mem_map.mp h with ⟨t, htf, rfl⟩
    rcases List.mem_filter.mp htf with ⟨htm, hres⟩
    have hres' : resolveParent tags t = none := by simpa using hres
    exact ⟨List.mem_map.mpr ⟨t, htm, rfl⟩, (par_of_mem hN htm).trans hres'⟩
  · rintro ⟨hc, hp⟩
    rcases List.mem_map.mp hc with ⟨t, htm, rfl⟩
    rw [par_of_mem hN htm] at hp
    exact List.mem_map.mpr ⟨t, List.mem_filter.mpr ⟨htm, by simpa using hp⟩, rfl⟩

theorem nodup_children {tags : List Tag} (hN : (tags.map (·.codename)).Nodup)
    (p : String) : ((createTagTree tags).children p).Nodup := by
  rw [createTagTree_children]
  exact hN.sublist (List.Sublist.map _ (List.filter_sublist tags))

theorem nodup_roots {tags : List Tag} (hN : (tags.map (·.codename)).Nodup) :
    ((createTagTree tags).roots).Nodup := by
  rw [createTagTree_roots]
  exact hN.sublist (List.Sublist.map _ (List.filter_sublist tags))

theorem iterPar_one (tags : List Tag) (c : String) :
    iterPar tags 1 c = par tags c := by
  rw [iterPar_succ]
  cases par tags c <;> rfl

theorem par_mem_codenames (tags : List Tag) {c p : String}
    (h : par tags c = some p) : c ∈ tags.map (·.codename) := by
  unfold par at h
  cases ht : tagOf tags c with
  | none => rw [ht] at h; exact Option.noConfusion h
  | some t =>
      rcases tagOf_eq_some tags ht with ⟨htm, hcn⟩
      exact hcn ▸ List.mem_map.mpr ⟨t, htm, rfl⟩

/-- Bounded reachability along ancestor chains: `x` is `c` itself or one of
its iterated parents within `fuel` steps. -/
def occursWithin (tags : List Tag) (fuel : Nat) (c x : String) : Bool :=
  (List.range fuel).any (fun k => iterPar tags k c == some x)

theorem occursWithin_iff (tags : List Tag) (fuel : Nat) (c x : String) :
    occursWithin tags fuel c x = true ↔ ∃ k < fuel, iterPar tags k c = some x := by
  simp [occursWithin, List.any_eq_true, List.mem_range]

theorem sum_map_eq_zero {α : Type} (l : List α) (g : α → Nat)
    (h : ∀ y ∈ l, g y = 0) : (l.map g).sum = 0 := by
  induction l with
  | nil => rfl
  | cons a l ih =>
      simp only [List.map_cons, List.sum_cons, h a (List.mem_cons_self a l),
        ih (fun y hy => h y (List.mem_cons_of_mem a hy))]

theorem sum_map_eq_one {α : Type} [DecidableEq α] (l : List α) (g : α → Nat)
    (hnd : l.Nodup) {y₀ : α} (hy : y₀ ∈ l) (h1 : g y₀ = 1)
    (h0 : ∀ y ∈ l, y ≠ y₀ → g y = 0) : (l.map g).sum = 1 := by
  induction l with
  | nil => cases hy
  | cons a l ih =>
      rw [List.nodup_cons] at hnd
      rcases List.mem_cons.mp hy with rfl | hmem
      · simp only [List.map_cons, List.sum_cons, h1]
        rw [sum_map_eq_zero l g
          (fun y hyl => h0 y (List.mem_cons_of_mem _ hyl)
            (fun he => hnd.1 (he ▸ hyl)))]
      · have ha : g a = 0 :=
          h0 a (List.mem_cons_self a l) (fun he => hnd.1 (he ▸ hmem))
        simp only [List.map_cons, List.sum_cons, ha, Nat.zero_add]
        exact ih hnd.2 hmem
          (fun y hyl hne => h0 y (List.mem_cons_of_mem _ hyl) hne)

/-- Main counting lemma: on a chain that terminates, the number of times `c`
appears in the pre-order traversal started at `x` is one when `x` is an
ancestor-or-self of `c` close enough for the fuel, and zero otherwise. -/
theorem count_preorder {tags : List Tag} (hN : (tags.map (·.codename)).Nodup)
    {c : String} {N : Nat} (hG : iterPar tags N c = none) :
    ∀ fuel x, (preorder (createTagTree tags).children fuel x).count c
      = if occursWithin tags fuel c x then 1 else 0 := by
  intro fuel
  induction fuel with
  | zero =>
      intro x
      simp [preorder, occursWithin]
  | succ fuel ih =>
      intro x
      have hcount : (preorder (createTagTree tags).children (fuel + 1) x).count c
          = (((createTagTree tags).children x).map
              (fun y => (preorder (createTagTree tags).children fuel y).count c)).sum
            + (if x = c then 1 else 0) := by
        simp only [preorder, List.count_cons, List.count_flatMap, Function.comp, beq_iff_eq]
        rfl
      rw [hcount]
      by_cases hx : c = x
      · subst hx
        have hocc : occursWithin tags (fuel + 1) c c = true :=
          (occursWithin_iff tags _ c c).mpr ⟨0, Nat.succ_pos fuel, rfl⟩
        rw [hocc]
        simp only [if_true]
        have hz : ∀ y ∈ (createTagTree tags).children c,
            (preorder (createTagTree tags).children fuel y).count c = 0 := by
          intro y hy
          rw [ih y]
          rcases (mem_children_iff hN y c).mp hy with ⟨_, hpar⟩
          by_cases ho : occursWithin tags fuel c y = true
          · exfalso
            rcases (occursWithin_iff tags fuel c y).mp ho with ⟨k, hk, hik⟩
            have hkc : iterPar tags (k + 1) c = some c := by
              rw [iterPar_add tags k 1, hik]
              simpa [iterPar_one] using hpar
            have := iterPar_inj tags hG hkc (iterPar_zero tags c)
            omega
          · rw [Bool.not_eq_true] at ho
            rw [ho]
            rfl
        rw [sum_map_eq_zero _ _ hz]
      · by_cases hocc : occursWithin tags (fuel + 1) c x = true
        · rw [hocc]
          simp only [if_true]
          rcases (occursWithin_iff tags _ c x).mp hocc with ⟨k, hk, hik⟩
          have hkpos : k ≠ 0 := by
            intro h0
            subst h0
            exact hx (by simpa using hik)
          obtain ⟨k', rfl⟩ : ∃ k', k = k' + 1 := ⟨k - 1, by omega⟩
          have hdec := iterPar_add tags k' 1 c
          rw [hik] at hdec
          cases hy : iterPar tags k' c with
          | none => rw [hy] at hdec; exact absurd hdec.symm (by simp)
          | some y =>
              rw [hy] at hdec
              have hpy : par tags y = some x := by
                have := hdec.symm
                simpa [iterPar_one] using this
              have hymem : y ∈ (createTagTree tags).children x :=
                (mem_children_iff hN y x).mpr ⟨par_mem_codenames tags hpy, hpy⟩
              have hsum : (((createTagTree tags).children x).map
                  (fun z => (preorder (createTagTree tags).children fuel z).count c)).sum = 1 := by
                apply sum_map_eq_one _ _ (nodup_children hN x) hymem
                · rw [ih y]
                  have : occursWithin tags fuel c y = true :=
                    (occursWithin_iff tags fuel c y).mpr ⟨k', by omega, hy⟩
                  rw [this]
                  rfl
                · intro z hz hzy
                  rw [ih z]
                  by_cases ho : occursWithin tags fuel c z = true
                  · exfalso
                    rcases (occursWithin_iff tags fuel c z).mp ho with ⟨j, hj, hij⟩
                    rcases (mem_children_iff hN z x).mp hz with ⟨_, hpz⟩
                    have hjx : iterPar tags (j + 1) c = some x := by
                      rw [iterPar_add tags j 1, hij]
                      simpa [iterPar_one] using hpz
                    have := iterPar_inj tags hG hjx hik
                    have hj' : j = k' := by omega
                    subst hj'
                    rw [hij] at hy
                    exact hzy (Option.some.inj hy)
                  · rw [Bool.not_eq_true] at ho
                    rw [ho]
                    rfl
              rw [hsum]
              simp [Ne.symm hx]
        · rw [Bool.not_eq_true] at hocc
          rw [hocc]
          have hz : ∀ y ∈ (createTagTree tags).children x,
              (preorder (createTagTree tags).children fuel y).count c = 0 := by
            intro y hy
            rw [ih y]
            by_cases ho : occursWithin tags fuel c y = true
            · exfalso
              rcases (occursWithin_iff tags fuel c y).mp ho with ⟨j, hj, hij⟩
              rcases (mem_children_iff hN y x).mp hy with ⟨_, hpy⟩
              have hjx : iterPar tags (j + 1) c = some x := by
                rw [iterPar_add tags j 1, hij]
                simpa [iterPar_one] using hpy
              have : occursWithin tags (fuel + 1) c x = true :=
                (occursWithin_iff tags _ c x).mpr ⟨j + 1, by omega, hjx⟩
              rw [this] at hocc
              exact Bool.noConfusion hocc
            · rw [Bool.not_eq_true] at ho
              rw [ho]
              rfl
          rw [sum_map_eq_zero _ _ hz]
          simp [Ne.symm hx]

theorem exists_chain_end (tags : List Tag) {c : String} :
    ∀ {N : Nat}, iterPar tags N c = none →
      ∃ m < N, ∃ z, iterPar tags m c = some z ∧ iterPar tags (m + 1) c = none := by
  intro N
  induction N with
  | zero => intro h; exact absurd h (by simp)
  | succ N ih =>
      intro h
      cases hN' : iterPar tags N c with
      | none =>
          rcases ih hN' with ⟨m, hm, z, hz⟩
          exact ⟨m, by omega, z, hz⟩
      | some z => exact ⟨N, by omega, z, hN', h⟩

theorem chain_end_par_none (tags : List Tag) {m : Nat} {c z : String}
    (hm : iterPar tags m c = some z) (hm1 : iterPar tags (m + 1) c = none) :
    par tags z = none := by
  rw [iterPar_add tags m 1, hm] at hm1
  simpa [iterPar_one] using hm1

theorem iterPar_succ_mem (tags : List Tag) {m : Nat} {c z : String}
    (hm : iterPar tags (m + 1) c = some z) : z ∈ tags.map (·.codename) := by
  rw [iterPar_add tags m 1] at hm
  cases hy : iterPar tags m c with
  | none => rw [hy] at hm; exact absurd hm (by simp)
  | some y =>
      rw [hy] at hm
      have hpy : par tags y = some z := by simpa [iterPar_one] using hm
      rw [← hasCodename_iff]
      exact par_hasCodename tags hpy

theorem children_subset (tags : List Tag) (p : String) :
    (createTagTree tags).children p ⊆ tags.map (·.codename) := by
  rw [createTagTree_children]
  exact List.map_subset _ (fun t ht => (List.mem_filter.mp ht).1)

theorem roots_subset (tags : List Tag) :
    (createTagTree tags).roots ⊆ tags.map (·.codename) := by
  rw [createTagTree_roots]
  exact List.map_subset _ (fun t ht => (List.mem_filter.mp ht).1)

theorem mem_preorder_sub (tags : List Tag) :
    ∀ (fuel : Nat) (x c : String),
      c ∈ preorder (createTagTree tags).children fuel x →
        c = x ∨ c ∈ tags.map (·.codename) := by
  intro fuel
  induction fuel with
  | zero => intro x c h; cases h
  | succ fuel ih =>
      intro x c h
      rcases List.mem_cons.mp h with rfl | h
      · exact Or.inl rfl
      · rcases List.mem_flatMap.mp h with ⟨y, hy, hc⟩
        rcases ih y c hc with rfl | hmem
        · exact Or.inr (children_subset tags x hy)
        · exact Or.inr hmem

theorem mem_flatten_imp (tags : List Tag) {c : String}
    (h : c ∈ tagPickerFlatten tags) : c ∈ tags.map (·.codename) := by
  unfold tagPickerFlatten flattenTree at h
  rcases List.mem_flatMap.mp h with ⟨r, hr, hc⟩
  rcases mem_preorder_sub tags _ r c hc with rfl | hmem
  · exact roots_subset tags hr
  · exact hmem

/-- On a terminating chain, a codename of the collection appears exactly
once in the flattened output. -/
theorem count_tagPickerFlatten {tags : List Tag}
    (hN : (tags.map (·.codename)).Nodup) {c : String}
    (hc : c ∈ tags.map (·.codename))
    (hG : iterPar tags (tags.length + 1) c = none) :
    (tagPickerFlatten tags).count c = 1 := by
  unfold tagPickerFlatten flattenTree
  rw [List.count_flatMap]
  have hmap : List.map (List.count c ∘ preorder (createTagTree tags).children (tags.length + 1))
        (createTagTree tags).roots
      = List.map (fun r => if occursWithin tags (tags.length + 1) c r then 1 else 0)
        (createTagTree tags).roots := by
    apply List.map_congr_left
    intro r _
    exact count_preorder hN hG (tags.length + 1) r
  rw [hmap]
  obtain ⟨m, hm, z, hmz, hmz1⟩ := exists_chain_end tags hG
  have hpz : par tags z = none := chain_end_par_none tags hmz hmz1
  have hzcn : z ∈ tags.map (·.codename) := by
    cases m with
    | zero =>
        have hzc : c = z := by simpa using hmz
        exact hzc ▸ hc
    | succ m' => exact iterPar_succ_mem tags hmz
  have hzroots : z ∈ (createTagTree tags).roots :=
    (mem_roots_iff hN z).mpr ⟨hzcn, hpz⟩
  apply sum_map_eq_one _ _ (nodup_roots hN) hzroots
  · rw [(occursWithin_iff tags _ c z).mpr ⟨m, hm, hmz⟩]
    rfl
  · intro r hr hrz
    by_cases ho : occursWithin tags (tags.length + 1) c r = true
    · exfalso
      rcases (occursWithin_iff tags _ c r).mp ho with ⟨k, hk, hkr⟩
      rcases (mem_roots_iff hN r).mp hr with ⟨_, hpr⟩
      have hk1 : iterPar tags (k + 1) c = none := by
        rw [iterPar_add tags k 1, hkr]
        simpa [iterPar_one] using hpr
      rcases Nat.lt_trichotomy k m with hlt | heq | hgt
      · have : iterPar tags m c = none :=
          iterPar_none_stable tags hk1 (by omega)
        rw [this] at hmz
        exact Option.noConfusion hmz
      · subst heq
        rw [hkr] at hmz
        exact hrz (Option.some.inj hmz)
      · have : iterPar tags k c = none :=
          iterPar_none_stable tags hmz1 (by omega)
        rw [this] at hkr
        exact Option.noConfusion hkr
    · rw [Bool.not_eq_true] at ho
      rw [ho]
      rfl

/-- The attachment chain of `c` reaches a root (equivalently, iterating the
structural parent hits `none` within `tags.length + 1` steps; a terminating
chain never revisits a codename, so this bound loses nothing). -/
def chainTerminates (tags : List Tag) (c : String) : Bool :=
  iterPar tags (tags.length + 1) c == none

/-- Every tag of the collection has a terminating attachment chain: the
first-resolving-parent relation has no cycle among the tags. -/
def acyclicAttachment (tags : List Tag) : Bool :=
  tags.all (fun t => chainTerminates tags t.codename)

/-- Example tag whose system name, display name and id coincide with the
codename; only codename and parent references matter to the hierarchy. -/
def mkTag (c : String) (ps : List String) : Tag :=
  { codename := c, name := c, displayName := c, id := c, parentTags := ps }

/-- C1 counterexample: a single self-referencing tag (its `parentCodenames`
list names itself) is attached as its own child, the root list stays empty,
and the flattened output is empty: the tag is dropped, so the output does
not contain every element of the collection exactly once. -/
theorem claimC1_counterexample :
    "a" ∈ ([mkTag "a" ["a"]]).map (·.codename) ∧
      (tagPickerFlatten [mkTag "a" ["a"]]).count "a" = 0 := by
  constructor
  · decide
  · decide

/-- C1, amended: the claim fails for collections whose parent references
form a cycle (including self-references), whose members are silently
dropped from the flattened output.  For every collection with
duplicate-free codenames whose attachment chains all terminate, the
flattened output is a permutation of the codenames of the collection:
every tag exactly once, none dropped, none repeated. -/
theorem claimC1_amended (tags : List Tag) (hN : (tags.map (·.codename)).Nodup)
    (hA : acyclicAttachment tags = true) :
    (tagPickerFlatten tags).Perm (tags.map (·.codename)) := by
  rw [List.perm_iff_count]
  intro a
  by_cases ha : a ∈ tags.map (·.codename)
  · have hG : iterPar tags (tags.length + 1) a = none := by
      rcases List.mem_map.mp ha with ⟨t, htm, rfl⟩
      have := List.all_eq_true.mp hA t htm
      simpa [chainTerminates] using this
    rw [count_tagPickerFlatten hN ha hG, List.count_eq_one_of_mem hN ha]
  · rw [List.count_eq_zero.mpr ha,
      List.count_eq_zero.mpr (fun h => ha (mem_flatten_imp tags h))]

/-- Witness for the amended C1 on a concrete collection listed child-first. -/
theorem claimC1_amended_witness :
    ((([mkTag "c" ["b"], mkTag "b" ["a"], mkTag "a" []]).map (·.codename)).Nodup ∧
      acyclicAttachment [mkTag "c" ["b"], mkTag "b" ["a"], mkTag "a" []] = true) ∧
    (tagPickerFlatten [mkTag "c" ["b"], mkTag "b" ["a"], mkTag "a" []]).Perm
      (([mkTag "c" ["b"], mkTag "b" ["a"], mkTag "a" []]).map (·.codename)) :=
  ⟨⟨by decide, by decide⟩,
    claimC1_amended [mkTag "c" ["b"], mkTag "b" ["a"], mkTag "a" []]
      (by decide) (by decide)⟩

/-- C2: the hierarchy pass attaches each tag to the first entry of its
parent list that names a tag of the collection, appending it as the last
child (children lists are the attaching tags in input order); a tag lands
in the root list exactly when no entry resolves (in particular when the
parent list is empty); and, with duplicate-free codenames, no tag is
attached under two different parents (first-match-wins, not all-matches). -/
theorem claimC2 (tags : List Tag) (hN : (tags.map (·.codename)).Nodup) :
    ((createTagTree tags).roots =
        (tags.filter (fun t => resolveParent tags t = none)).map (·.codename))
    ∧ (∀ p, (createTagTree tags).children p =
        (tags.filter (fun t => resolveParent tags t = some p)).map (·.codename))
    ∧ (∀ t : Tag, resolveParent tags t = none ↔
        ∀ p ∈ t.parentTags, hasCodename tags p = false)
    ∧ (∀ (t : Tag) (p : String), resolveParent tags t = some p ↔
        hasCodename tags p = true ∧
          ∃ pre post, t.parentTags = pre ++ p :: post ∧
            ∀ q ∈ pre, hasCodename tags q = false)
    ∧ (∀ t ∈ tags, (t.codename ∈ (createTagTree tags).roots ↔
        resolveParent tags t = none))
    ∧ (∀ t ∈ tags, ∀ p q : String,
        t.codename ∈ (createTagTree tags).children p →
        t.codename ∈ (createTagTree tags).children q → p = q) := by
  refine ⟨createTagTree_roots tags, createTagTree_children tags, ?_, ?_, ?_, ?_⟩
  · intro t
    unfold resolveParent
    rw [List.find?_eq_none]
    constructor
    · intro h p hp
      have := h p hp
      simpa using this
    · intro h p hp
      simp [h p hp]
  · intro t p
    unfold resolveParent
    rw [List.find?_eq_some]
    constructor
    · rintro ⟨hp, pre, post, heq, hpre⟩
      refine ⟨hp, pre, post, heq, fun q hq => ?_⟩
      have := hpre q hq
      simpa using this
    · rintro ⟨hp, pre, post, heq, hpre⟩
      refine ⟨hp, pre, post, heq, fun q hq => ?_⟩
      simp [hpre q hq]
  · intro t ht
    rw [mem_roots_iff hN, par_of_mem hN ht]
    constructor
    · rintro ⟨_, h⟩; exact h
    · intro h; exact ⟨List.mem_map.mpr ⟨t, ht, rfl⟩, h⟩
  · intro t ht p q hp hq
    rcases (mem_children_iff hN _ p).mp hp with ⟨_, hpp⟩
    rcases (mem_children_iff hN _ q).mp hq with ⟨_, hpq⟩
    rw [hpp] at hpq
    exact Option.some.inj hpq

/-- Witness for C2 on a collection with an unresolvable first entry, a
resolving second entry, and a root. -/
theorem claimC2_witness :
    ((([mkTag "a" [], mkTag "b" ["ghost", "a"]]).map (·.codename)).Nodup) ∧
    ((createTagTree [mkTag "a" [], mkTag "b" ["ghost", "a"]]).roots =
        (([mkTag "a" [], mkTag "b" ["ghost", "a"]]).filter
          (fun t => resolveParent [mkTag "a" [], mkTag "b" ["ghost", "a"]] t = none)).map (·.codename)
    ∧ (∀ p, (createTagTree [mkTag "a" [], mkTag "b" ["ghost", "a"]]).children p =
        (([mkTag "a" [], mkTag "b" ["ghost", "a"]]).filter
          (fun t => resolveParent [mkTag "a" [], mkTag "b" ["ghost", "a"]] t = some p)).map (·.codename))
    ∧ (∀ t : Tag, resolveParent [mkTag "a" [], mkTag "b" ["ghost", "a"]] t = none ↔
        ∀ p ∈ t.parentTags, hasCodename [mkTag "a" [], mkTag "b" ["ghost", "a"]] p = false)
    ∧ (∀ (t : Tag) (p : String),
        resolveParent [mkTag "a" [], mkTag "b" ["ghost", "a"]] t = some p ↔
        hasCodename [mkTag "a" [], mkTag "b" ["ghost", "a"]] p = true ∧
          ∃ pre post, t.parentTags = pre ++ p :: post ∧
            ∀ q ∈ pre, hasCodename [mkTag "a" [], mkTag "b" ["ghost", "a"]] q = false)
    ∧ (∀ t ∈ [mkTag "a" [], mkTag "b" ["ghost", "a"]],
        (t.codename ∈ (createTagTree [mkTag "a" [], mkTag "b" ["ghost", "a"]]).roots ↔
          resolveParent [mkTag "a" [], mkTag "b" ["ghost", "a"]] t = none))
    ∧ (∀ t ∈ [mkTag "a" [], mkTag "b" ["ghost", "a"]], ∀ p q : String,
        t.codename ∈ (createTagTree [mkTag "a" [], mkTag "b" ["ghost", "a"]]).children p →
        t.codename ∈ (createTagTree [mkTag "a" [], mkTag "b" ["ghost", "a"]]).children q →
        p = q)) :=
  ⟨by decide, claimC2 [mkTag "a" [], mkTag "b" ["ghost", "a"]] (by decide)⟩

/-! ### Levels and root flags -/

theorem buildStep_level_other (tags : List Tag) (st : TreeForest) (t : Tag)
    (c : String) (h : t.codename ≠ c ∨ resolveParent tags t = none) :
    (buildStep tags st t).level c = st.level c := by
  unfold buildStep
  cases hr : resolveParent tags t with
  | none => rfl
  | some p =>
      rcases h with h | h
      · exact if_neg (Ne.symm h)
      · rw [h] at hr; exact Option.noConfusion hr

theorem buildStep_isRoot_other (tags : List Tag) (st : TreeForest) (t : Tag)
    (c : String) (h : t.codename ≠ c ∨ resolveParent tags t = none) :
    (buildStep tags st t).isRoot c = st.isRoot c := by
  unfold buildStep
  cases hr : resolveParent tags t with
  | none => rfl
  | some p =>
      rcases h with h | h
      · exact if_neg (Ne.symm h)
      · rw [h] at hr; exact Option.noConfusion hr

theorem buildStep_level_self (tags : List Tag) (st : TreeForest) (t : Tag)
    {p : String} (hr : resolveParent tags t = some p) :
    (buildStep tags st t).level t.codename = st.level p + 1 := by
  unfold buildStep
  rw [hr]
  exact if_pos rfl

theorem buildStep_isRoot_self (tags : List Tag) (st : TreeForest) (t : Tag)
    {p : String} (hr : resolveParent tags t = some p) :
    (buildStep tags st t).isRoot t.codename = false := by
  unfold buildStep
  rw [hr]
  exact if_pos rfl

theorem foldl_level_other (tags : List Tag) (l : List Tag) (st : TreeForest)
    (c : String) (h : ∀ t ∈ l, t.codename ≠ c ∨ resolveParent tags t = none) :
    (l.foldl (buildStep tags) st).level c = st.level c := by
  induction l generalizing st with
  | nil => rfl
  | cons u l ih =>
      rw [List.foldl_cons, ih _ (fun t ht => h t (List.mem_cons_of_mem _ ht)),
        buildStep_level_other tags st u c (h u (List.mem_cons_self u l))]

theorem foldl_isRoot_other (tags : List Tag) (l : List Tag) (st : TreeForest)
    (c : String) (h : ∀ t ∈ l, t.codename ≠ c ∨ resolveParent tags t = none) :
    (l.foldl (buildStep tags) st).isRoot c = st.isRoot c := by
  induction l generalizing st with
  | nil => rfl
  | cons u l ih =>
      rw [List.foldl_cons, ih _ (fun t ht => h t (List.mem_cons_of_mem _ ht)),
        buildStep_isRoot_other tags st u c (h u (List.mem_cons_self u l))]

/-- Configuration check: every tag whose parent resolves is listed after the
tag it attaches to (parents precede children in input order). -/
def parentsPrecedeAux (tags : List Tag) : List String → List Tag → Bool
  | _, [] => true
  | seen, t :: rest =>
      (match resolveParent tags t with
       | none => true
       | some p => seen.contains p) && parentsPrecedeAux tags (seen ++ [t.codename]) rest

def parentsPrecede (tags : List Tag) : Bool := parentsPrecedeAux tags [] tags

theorem parentsPrecedeAux_mem (tags : List Tag) :
    ∀ (l : List Tag) (seen : List String), parentsPrecedeAux tags seen l = true →
      ∀ pre (t : Tag) post, l = pre ++ t :: post →
        ∀ p, resolveParent tags t = some p → p ∈ seen ++ pre.map (·.codename) := by
  intro l
  induction l with
  | nil =>
      intro seen _ pre t post heq
      exact absurd heq (by simp)
  | cons u rest ih =>
      intro seen haux pre t post heq p hp
      rw [parentsPrecedeAux, Bool.and_eq_true] at haux
      cases pre with
      | nil =>
          simp only [List.nil_append, List.cons.injEq] at heq
          rcases heq with ⟨rfl, _⟩
          rw [hp] at haux
          have := haux.1
          simp only [List.map_nil, List.append_nil]
          simpa using this
      | cons v pre' =>
          simp only [List.cons_append, List.cons.injEq] at heq
          rcases heq with ⟨rfl, heq'⟩
          have := ih (seen ++ [u.codename]) haux.2 pre' t post heq' p hp
          simpa [List.append_assoc] using this

theorem parentsPrecede_mem (tags : List Tag) (h : parentsPrecede tags = true)
    {pre post : List Tag} {t : Tag} (heq : tags = pre ++ t :: post)
    {p : String} (hp : resolveParent tags t = some p) :
    p ∈ pre.map (·.codename) := by
  have := parentsPrecedeAux_mem tags tags [] h pre t post heq p hp
  simpa using this

/-- C7 counterexample: in `[c (parent b), b (parent a), a]` the tag `c` is
processed before its parent `b` is attached, so `c` receives the stale
level `0 + 1 = 1`; the final level of its structural parent `b` is also
`1`, so the built forest has a non-root node whose level is not its
parent's final level plus one. -/
theorem claimC7_counterexample :
    par [mkTag "c" ["b"], mkTag "b" ["a"], mkTag "a" []] "c" = some "b" ∧
    (createTagTree [mkTag "c" ["b"], mkTag "b" ["a"], mkTag "a" []]).level "c" = 1 ∧
    (createTagTree [mkTag "c" ["b"], mkTag "b" ["a"], mkTag "a" []]).level "b" = 1 ∧
    (createTagTree [mkTag "c" ["b"], mkTag "b" ["a"], mkTag "a" []]).isRoot "c" = false := by
  refine ⟨by decide, by decide, by decide, by decide⟩

/-- C7, amended: the level written for an attached node is the level its
parent had at the moment the node was processed, which matches the parent's
final level plus one only when each resolving parent is listed before the
tags it attaches (`parentsPrecede`).  Under that ordering (and duplicate-free
codenames), roots keep level 0 with `isRoot = true` and every attached node
gets its parent's final level plus one with `isRoot = false`. -/
theorem claimC7_amended (tags : List Tag) (hN : (tags.map (·.codename)).Nodup)
    (hOrd : parentsPrecede tags = true) :
    ∀ t ∈ tags,
      (resolveParent tags t = none →
        (createTagTree tags).level t.codename = 0 ∧
        (createTagTree tags).isRoot t.codename = true) ∧
      (∀ p, resolveParent tags t = some p →
        (createTagTree tags).level t.codename = (createTagTree tags).level p + 1 ∧
        (createTagTree tags).isRoot t.codename = false) := by
  intro t ht
  obtain ⟨pre, post, heq⟩ := List.append_of_mem ht
  have hsplit : (createTagTree tags) =
      post.foldl (buildStep tags) (buildStep tags (pre.foldl (buildStep tags)
        { roots := [], children := fun _ => [], level := fun _ => 0,
          isRoot := fun _ => true }) t) := by
    unfold createTagTree
    rw [heq, List.foldl_append, List.foldl_cons]
  have hNd : ((pre.map (·.codename)) ++
      t.codename :: (post.map (·.codename))).Nodup := by
    have := hN
    rw [heq] at this
    simpa [List.map_append] using this
  rw [List.nodup_append] at hNd
  obtain ⟨hNpre, hNcons, hdisj⟩ := hNd
  rw [List.nodup_cons] at hNcons
  have hpre_ne : ∀ u ∈ pre, u.codename ≠ t.codename := by
    intro u hu he
    exact hdisj (List.mem_map.mpr ⟨u, hu, rfl⟩) (he ▸ List.mem_cons_self _ _)
  have hpost_ne : ∀ u ∈ post, u.codename ≠ t.codename := by
    intro u hu he
    exact hNcons.1 (he ▸ List.mem_map.mpr ⟨u, hu, rfl⟩)
  constructor
  · intro hr
    rw [hsplit,
      foldl_level_other tags post _ _ (fun u hu => Or.inl (hpost_ne u hu)),
      foldl_isRoot_other tags post _ _ (fun u hu => Or.inl (hpost_ne u hu)),
      buildStep_level_other tags _ t _ (Or.inr hr),
      buildStep_isRoot_other tags _ t _ (Or.inr hr),
      foldl_level_other tags pre _ _ (fun u hu => Or.inl (hpre_ne u hu)),
      foldl_isRoot_other tags pre _ _ (fun u hu => Or.inl (hpre_ne u hu))]
    exact ⟨rfl, rfl⟩
  · intro p hr
    have hpmem : p ∈ pre.map (·.codename) := parentsPrecede_mem tags hOrd heq hr
    have hp_ne_t : p ≠ t.codename := by
      intro he
      exact hdisj hpmem (he ▸ List.mem_cons_self _ _)
    have hpost_ne_p : ∀ u ∈ post, u.codename ≠ p := by
      intro u hu he
      exact hdisj (he ▸ hpmem) (List.mem_cons_of_mem _ (List.mem_map.mpr ⟨u, hu, rfl⟩))
    constructor
    · rw [hsplit,
        foldl_level_other tags post _ _ (fun u hu => Or.inl (hpost_ne u hu)),
        buildStep_level_self tags _ t hr,
        foldl_level_other tags post _ p (fun u hu => Or.inl (hpost_ne_p u hu)),
        buildStep_level_other tags _ t p (Or.inl (Ne.symm hp_ne_t))]
    · rw [hsplit,
        foldl_isRoot_other tags post _ _ (fun u hu => Or.inl (hpost_ne u hu)),
        buildStep_isRoot_self tags _ t hr]

/-- Witness for the amended C7 on a parent-before-child collection. -/
theorem claimC7_amended_witness :
    ((([mkTag "a" [], mkTag "b" ["a"], mkTag "c" ["b"]]).map (·.codename)).Nodup ∧
      parentsPrecede [mkTag "a" [], mkTag "b" ["a"], mkTag "c" ["b"]] = true) ∧
    (∀ t ∈ [mkTag "a" [], mkTag "b" ["a"], mkTag "c" ["b"]],
      (resolveParent [mkTag "a" [], mkTag "b" ["a"], mkTag "c" ["b"]] t = none →
        (createTagTree [mkTag "a" [], mkTag "b" ["a"], mkTag "c" ["b"]]).level t.codename = 0 ∧
        (createTagTree [mkTag "a" [], mkTag "b" ["a"], mkTag "c" ["b"]]).isRoot t.codename = true) ∧
      (∀ p, resolveParent [mkTag "a" [], mkTag "b" ["a"], mkTag "c" ["b"]] t = some p →
        (createTagTree [mkTag "a" [], mkTag "b" ["a"], mkTag "c" ["b"]]).level t.codename =
          (createTagTree [mkTag "a" [], mkTag "b" ["a"], mkTag "c" ["b"]]).level p + 1 ∧
        (createTagTree [mkTag "a" [], mkTag "b" ["a"], mkTag "c" ["b"]]).isRoot t.codename = false)) :=
  ⟨⟨by decide, by decide⟩,
    claimC7_amended [mkTag "a" [], mkTag "b" ["a"], mkTag "c" ["b"]] (by decide) (by decide)⟩

/-! ### Order of the flattened output -/

theorem mem_preorder_chain {tags : List Tag} (hN : (tags.map (·.codename)).Nodup) :
    ∀ (fuel : Nat) (x c : String), c ∈ preorder (createTagTree tags).children fuel x →
      ∃ k < fuel, iterPar tags k c = some x := by
  intro fuel
  induction fuel with
  | zero => intro x c h; cases h
  | succ fuel ih =>
      intro x c h
      rcases List.mem_cons.mp h with rfl | h
      · exact ⟨0, Nat.succ_pos _, rfl⟩
      · rcases List.mem_flatMap.mp h with ⟨y, hy, hc⟩
        rcases ih y c hc with ⟨k, hk, hik⟩
        rcases (mem_children_iff hN y x).mp hy with ⟨_, hpy⟩
        refine ⟨k + 1, by omega, ?_⟩
        rw [iterPar_add tags k 1, hik]
        simpa [iterPar_one] using hpy

theorem chain_mem_preorder {tags : List Tag} (hN : (tags.map (·.codename)).Nodup) :
    ∀ (k : Nat) (c x : String), iterPar tags k c = some x →
      ∀ fuel, k < fuel → c ∈ preorder (createTagTree tags).children fuel x := by
  intro k
  induction k with
  | zero =>
      intro c x h fuel hf
      have hcx : c = x := by simpa using h
      subst hcx
      obtain ⟨fuel', rfl⟩ : ∃ f, fuel = f + 1 := ⟨fuel - 1, by omega⟩
      exact List.mem_cons_self _ _
  | succ k ih =>
      intro c x h fuel hf
      rw [iterPar_add tags k 1] at h
      cases hy : iterPar tags k c with
      | none => rw [hy] at h; exact absurd h (by simp)
      | some y =>
          rw [hy] at h
          have hpy : par tags y = some x := by simpa [iterPar_one] using h
          have hymem : y ∈ (createTagTree tags).children x :=
            (mem_children_iff hN y x).mpr ⟨par_mem_codenames tags hpy, hpy⟩
          obtain ⟨fuel', rfl⟩ : ∃ f, fuel = f + 1 := ⟨fuel - 1, by omega⟩
          exact List.mem_cons_of_mem _
            (List.mem_flatMap.mpr ⟨y, hymem, ih c y hy fuel' (by omega)⟩)

theorem sublist_flatMap_of_mem {α β : Type} {l : List α} {y : α} (h : y ∈ l)
    (f : α → List β) : (f y).Sublist (l.flatMap f) := by
  obtain ⟨s, t, rfl⟩ := List.append_of_mem h
  rw [List.flatMap_append, List.flatMap_cons]
  exact ((List.sublist_append_left (f y) (t.flatMap f)).trans
    (List.sublist_append_right (s.flatMap f) _))

theorem preorder_sublist_ancestor {tags : List Tag}
    (hN : (tags.map (·.codename)).Nodup) :
    ∀ (e : Nat) (a r : String), iterPar tags e a = some r → ∀ fuel, e < fuel →
      (preorder (createTagTree tags).children (fuel - e) a).Sublist
        (preorder (createTagTree tags).children fuel r) := by
  intro e
  induction e with
  | zero =>
      intro a r h fuel _
      have har : a = r := by simpa using h
      subst har
      simp
  | succ e ih =>
      intro a r h fuel hf
      rw [iterPar_add tags e 1] at h
      cases hz : iterPar tags e a with
      | none => rw [hz] at h; exact absurd h (by simp)
      | some z =>
          rw [hz] at h
          have hpz : par tags z = some r := by simpa [iterPar_one] using h
          have hzmem : z ∈ (createTagTree tags).children r :=
            (mem_children_iff hN z r).mpr ⟨par_mem_codenames tags hpz, hpz⟩
          obtain ⟨fuel', rfl⟩ : ∃ f, fuel = f + 1 := ⟨fuel - 1, by omega⟩
          have hsub1 : (preorder (createTagTree tags).children (fuel' - e) a).Sublist
              (preorder (createTagTree tags).children fuel' z) :=
            ih a z hz fuel' (by omega)
          have hsub2 : (preorder (createTagTree tags).children fuel' z).Sublist
              (((createTagTree tags).children r).flatMap
                (preorder (createTagTree tags).children fuel')) :=
            sublist_flatMap_of_mem hzmem _
          have harith : fuel' + 1 - (e + 1) = fuel' - e := by omega
          rw [harith]
          exact (hsub1.trans hsub2).cons r

theorem sublist_pair_indexOf_lt {α : Type} [DecidableEq α] {a b : α} :
    ∀ {l : List α}, ([a, b]).Sublist l → l.Nodup → l.indexOf a < l.indexOf b := by
  intro l
  induction l with
  | nil => intro h; cases h
  | cons x xs ih =>
      intro h hnd
      rw [List.nodup_cons] at hnd
      cases h with
      | cons _ h' =>
          have hamem : a ∈ xs := h'.subset (by simp)
          have hbmem : b ∈ xs := h'.subset (by simp)
          have hax : x ≠ a := fun he => hnd.1 (he ▸ hamem)
          have hbx : x ≠ b := fun he => hnd.1 (he ▸ hbmem)
          rw [List.indexOf_cons_ne _ hax, List.indexOf_cons_ne _ hbx]
          exact Nat.succ_lt_succ (ih h' hnd.2)
      | cons₂ _ h' =>
          have hbmem : b ∈ xs := h'.subset (by simp)
          have hba : a ≠ b := fun he => hnd.1 (he ▸ hbmem)
          rw [List.indexOf_cons_self, List.indexOf_cons_ne _ hba]
          exact Nat.succ_pos _

/-- Membership in the flattened output yields the root of the chain and
termination of the chain. -/
theorem flatten_mem_chain {tags : List Tag} (hN : (tags.map (·.codename)).Nodup)
    {c : String} (h : c ∈ tagPickerFlatten tags) :
    ∃ r ∈ (createTagTree tags).roots, ∃ k < tags.length + 1,
      iterPar tags k c = some r ∧ par tags r = none ∧
      iterPar tags (tags.length + 1) c = none := by
  unfold tagPickerFlatten flattenTree at h
  rcases List.mem_flatMap.mp h with ⟨r, hr, hc⟩
  rcases mem_preorder_chain hN _ r c hc with ⟨k, hk, hik⟩
  have hpr : par tags r = none := ((mem_roots_iff hN r).mp hr).2
  have hnone : iterPar tags (k + 1) c = none := by
    rw [iterPar_add tags k 1, hik]
    simpa [iterPar_one] using hpr
  exact ⟨r, hr, k, hk, hik, hpr, iterPar_none_stable tags hnone (by omega)⟩

theorem flatten_nodup {tags : List Tag}
    (hN : (tags.map (·.codename)).Nodup) : (tagPickerFlatten tags).Nodup := by
  rw [List.nodup_iff_count_le_one]
  intro a
  by_cases ha : a ∈ tagPickerFlatten tags
  · rcases flatten_mem_chain hN ha with ⟨r, hr, k, hk, hik, hpr, hG⟩
    rw [count_tagPickerFlatten hN (mem_flatten_imp tags ha) hG]
  · rw [List.count_eq_zero.mpr ha]
    exact Nat.zero_le 1

theorem ancestor_pair_sublist {tags : List Tag}
    (hN : (tags.map (·.codename)).Nodup) {c a : String} {k : Nat}
    (hc : c ∈ tagPickerFlatten tags) (ha : iterPar tags (k + 1) c = some a) :
    ([a, c]).Sublist (tagPickerFlatten tags) := by
  rcases flatten_mem_chain hN hc with ⟨r, hr, kc, hkc, hikc, hpr, hG⟩
  have hk1 : k + 1 ≤ kc := by
    by_contra hgt
    push_neg at hgt
    have h1 : iterPar tags (kc + 1) c = none := by
      rw [iterPar_add tags kc 1, hikc]
      simpa [iterPar_one] using hpr
    have h2 := iterPar_none_stable tags h1 (show kc + 1 ≤ k + 1 by omega)
    rw [h2] at ha
    exact Option.noConfusion ha
  have hea : iterPar tags (kc - (k + 1)) a = some r := by
    have hadd := iterPar_add tags (k + 1) (kc - (k + 1)) c
    rw [show k + 1 + (kc - (k + 1)) = kc by omega, hikc, ha] at hadd
    simpa using hadd.symm
  have hne : c ≠ a := by
    intro hce
    subst hce
    have := iterPar_inj tags hG ha (iterPar_zero tags c)
    omega
  have hFk : k + 1 < tags.length + 1 - (kc - (k + 1)) := by omega
  have hcmem : c ∈ preorder (createTagTree tags).children
      (tags.length + 1 - (kc - (k + 1))) a :=
    chain_mem_preorder hN (k + 1) c a ha _ hFk
  obtain ⟨F', hF'⟩ : ∃ f, tags.length + 1 - (kc - (k + 1)) = f + 1 :=
    ⟨tags.length - (kc - (k + 1)), by omega⟩
  have hpair : ([a, c]).Sublist (preorder (createTagTree tags).children
      (tags.length + 1 - (kc - (k + 1))) a) := by
    rw [hF'] at hcmem ⊢
    rcases List.mem_cons.mp hcmem with hce | htail
    · exact absurd hce hne
    · exact (List.singleton_sublist.mpr htail).cons₂ a
  have hemb := preorder_sublist_ancestor hN (kc - (k + 1)) a r hea
    (tags.length + 1) (by omega)
  have hout : (preorder (createTagTree tags).children (tags.length + 1) r).Sublist
      (tagPickerFlatten tags) := sublist_flatMap_of_mem hr _
  exact (hpair.trans hemb).trans hout

theorem sibling_pair_sublist {tags : List Tag}
    (hN : (tags.map (·.codename)).Nodup) {p x y d : String} {m : Nat}
    (hxy : ([x, y]).Sublist ((createTagTree tags).children p))
    (hmd : iterPar tags m d = some x) (hd : d ∈ tagPickerFlatten tags) :
    ([d, y]).Sublist (tagPickerFlatten tags) := by
  rcases flatten_mem_chain hN hd with ⟨r, hr, kd, hkd, hikd, hpr, hG⟩
  have hx : x ∈ (createTagTree tags).children p := hxy.subset (by simp)
  have hpx : par tags x = some p := ((mem_children_iff hN x p).mp hx).2
  have hm1 : iterPar tags (m + 1) d = some p := by
    rw [iterPar_add tags m 1, hmd]
    simpa [iterPar_one] using hpx
  have hm1kd : m + 1 ≤ kd := by
    by_contra hgt
    push_neg at hgt
    have h1 : iterPar tags (kd + 1) d = none := by
      rw [iterPar_add tags kd 1, hikd]
      simpa [iterPar_one] using hpr
    have h2 := iterPar_none_stable tags h1 (show kd + 1 ≤ m + 1 by omega)
    rw [h2] at hm1
    exact Option.noConfusion hm1
  have hep : iterPar tags (kd - (m + 1)) p = some r := by
    have hadd := iterPar_add tags (m + 1) (kd - (m + 1)) d
    rw [show m + 1 + (kd - (m + 1)) = kd by omega, hikd, hm1] at hadd
    simpa using hadd.symm
  obtain ⟨F', hF'⟩ : ∃ f, tags.length + 1 - (kd - (m + 1)) = f + 1 :=
    ⟨tags.length - (kd - (m + 1)), by omega⟩
  have hmF' : m < F' := by omega
  rcases List.cons_sublist_iff.mp hxy with ⟨r₁, r₂, hch, hxr₁, hyr₂⟩
  have hysub : y ∈ r₂ := List.singleton_sublist.mp hyr₂
  have hdx : d ∈ preorder (createTagTree tags).children F' x :=
    chain_mem_preorder hN m d x hmd F' hmF'
  have h1 : ([d]).Sublist (r₁.flatMap (preorder (createTagTree tags).children F')) :=
    (List.singleton_sublist.mpr hdx).trans (sublist_flatMap_of_mem hxr₁ _)
  have hyy : y ∈ preorder (createTagTree tags).children F' y := by
    obtain ⟨F'', rfl⟩ : ∃ f, F' = f + 1 := ⟨F' - 1, by omega⟩
    exact List.mem_cons_self _ _
  have h2 : ([y]).Sublist (r₂.flatMap (preorder (createTagTree tags).children F')) :=
    (List.singleton_sublist.mpr hyy).trans (sublist_flatMap_of_mem hysub _)
  have hpairs : ([d, y]).Sublist (((createTagTree tags).children p).flatMap
      (preorder (createTagTree tags).children F')) := by
    rw [hch, List.flatMap_append]
    exact List.Sublist.append h1 h2
  have hpre : ([d, y]).Sublist (preorder (createTagTree tags).children
      (tags.length + 1 - (kd - (m + 1))) p) := by
    rw [hF']
    exact hpairs.cons p
  have hemb := preorder_sublist_ancestor hN (kd - (m + 1)) p r hep
    (tags.length + 1) (by omega)
  have hout := sublist_flatMap_of_mem hr
    (preorder (createTagTree tags).children (tags.length + 1))
  exact (hpre.trans hemb).trans hout

/-- C3: with the data-model invariant of duplicate-free codenames, the
flattened output lists each node once, every (iterated) structural ancestor
of a listed node appears at an earlier position, and for two children
`x` before `y` of the same parent the whole subtree of `x` (any `d` whose
chain passes through `x`, including `x` itself at `m = 0`) appears before
`y`: sibling subtrees keep the insertion order of their roots. -/
theorem claimC3 (tags : List Tag) (hN : (tags.map (·.codename)).Nodup) :
    (tagPickerFlatten tags).Nodup ∧
    (∀ c ∈ tagPickerFlatten tags, ∀ (k : Nat) (a : String),
      iterPar tags (k + 1) c = some a →
        a ∈ tagPickerFlatten tags ∧
        (tagPickerFlatten tags).indexOf a < (tagPickerFlatten tags).indexOf c) ∧
    (∀ (p x y : String), ([x, y]).Sublist ((createTagTree tags).children p) →
      ∀ (d : String) (m : Nat), iterPar tags m d = some x →
        d ∈ tagPickerFlatten tags →
          y ∈ tagPickerFlatten tags ∧
          (tagPickerFlatten tags).indexOf d < (tagPickerFlatten tags).indexOf y) := by
  refine ⟨flatten_nodup hN, ?_, ?_⟩
  · intro c hc k a ha
    have hpair := ancestor_pair_sublist hN hc ha
    exact ⟨hpair.subset (by simp),
      sublist_pair_indexOf_lt hpair (flatten_nodup hN)⟩
  · intro p x y hxy d m hmd hd
    have hpair := sibling_pair_sublist hN hxy hmd hd
    exact ⟨hpair.subset (by simp),
      sublist_pair_indexOf_lt hpair (flatten_nodup hN)⟩

/-- Witness for C3 on a two-root collection with nested children. -/
theorem claimC3_witness :
    ((([mkTag "a" [], mkTag "b" ["a"], mkTag "c" ["a"], mkTag "d" ["b"]]).map
        (·.codename)).Nodup) ∧
    ((tagPickerFlatten [mkTag "a" [], mkTag "b" ["a"], mkTag "c" ["a"], mkTag "d" ["b"]]).Nodup ∧
    (∀ c ∈ tagPickerFlatten [mkTag "a" [], mkTag "b" ["a"], mkTag "c" ["a"], mkTag "d" ["b"]],
      ∀ (k : Nat) (a : String),
      iterPar [mkTag "a" [], mkTag "b" ["a"], mkTag "c" ["a"], mkTag "d" ["b"]] (k + 1) c = some a →
        a ∈ tagPickerFlatten [mkTag "a" [], mkTag "b" ["a"], mkTag "c" ["a"], mkTag "d" ["b"]] ∧
        (tagPickerFlatten [mkTag "a" [], mkTag "b" ["a"], mkTag "c" ["a"], mkTag "d" ["b"]]).indexOf a <
          (tagPickerFlatten [mkTag "a" [], mkTag "b" ["a"], mkTag "c" ["a"], mkTag "d" ["b"]]).indexOf c) ∧
    (∀ (p x y : String),
      ([x, y]).Sublist ((createTagTree [mkTag "a" [], mkTag "b" ["a"], mkTag "c" ["a"], mkTag "d" ["b"]]).children p) →
      ∀ (d : String) (m : Nat),
        iterPar [mkTag "a" [], mkTag "b" ["a"], mkTag "c" ["a"], mkTag "d" ["b"]] m d = some x →
        d ∈ tagPickerFlatten [mkTag "a" [], mkTag "b" ["a"], mkTag "c" ["a"], mkTag "d" ["b"]] →
          y ∈ tagPickerFlatten [mkTag "a" [], mkTag "b" ["a"], mkTag "c" ["a"], mkTag "d" ["b"]] ∧
          (tagPickerFlatten [mkTag "a" [], mkTag "b" ["a"], mkTag "c" ["a"], mkTag "d" ["b"]]).indexOf d <
            (tagPickerFlatten [mkTag "a" [], mkTag "b" ["a"], mkTag "c" ["a"], mkTag "d" ["b"]]).indexOf y)) :=
  ⟨by decide,
    claimC3 [mkTag "a" [], mkTag "b" ["a"], mkTag "c" ["a"], mkTag "d" ["b"]] (by decide)⟩

/-! ### Application pipeline: exclusion, search, reconciliation -/

/-- `getDisplayName` (`utils.ts` lines 31-38): combine system and element
names when they differ after trimming; otherwise prefer the element name,
falling back to the system name when the element name is empty (the
JavaScript truthiness check on a string is emptiness). -/
def getDisplayName (t : Tag) : String :=
  if t.displayName ≠ "" ∧ t.displayName.trim ≠ t.name.trim
  then t.name ++ " - " ++ t.displayName
  else if t.displayName ≠ "" then t.displayName else t.name

/-- `haystack.includes(needle)` on strings: some contiguous substring of
the haystack equals the needle. -/
def containsSub (hay needle : List Char) : Bool :=
  if needle.isPrefixOf hay then true
  else
    match hay with
    | [] => false
    | _ :: rest => containsSub rest needle

def strIncludes (hay needle : String) : Bool :=
  containsSub hay.toList needle.toList

/-- `availableTags` (application component): drop the tags whose codename is
already selected. -/
def excludeSelected (allTags selected : List Tag) : List Tag :=
  allTags.filter (fun tag => ¬ selected.any (fun s => s.codename = tag.codename))

/-- `filteredTags` (application component): a blank (or whitespace-only)
query keeps everything, otherwise keep the tags whose lowercased display
name contains the lowercased query. -/
def filterBySearch (tags : List Tag) (q : String) : List Tag :=
  if q.trim = "" then tags
  else tags.filter (fun tag => strIncludes (getDisplayName tag).toLower q.toLower)

/-- `flattenedTags` (application component): the dropdown list is the
flattening of the tree built from the already-filtered list. -/
def flattenedTags (allTags selected : List Tag) (query : String) : List String :=
  tagPickerFlatten (filterBySearch (excludeSelected allTags selected) query)

theorem excludeSelected_sublist (allTags selected : List Tag) :
    (excludeSelected allTags selected).Sublist allTags :=
  List.filter_sublist allTags

theorem filterBySearch_sublist (tags : List Tag) (q : String) :
    (filterBySearch tags q).Sublist tags := by
  unfold filterBySearch
  by_cases h : q.trim = ""
  · rw [if_pos h]
  · rw [if_neg h]
    exact List.filter_sublist tags

theorem unattached_root_state {tags : List Tag}
    (hN : (tags.map (·.codename)).Nodup) {t : Tag} (ht : t ∈ tags)
    (hr : resolveParent tags t = none) :
    (createTagTree tags).level t.codename = 0 ∧
    (createTagTree tags).isRoot t.codename = true := by
  obtain ⟨pre, post, heq⟩ := List.append_of_mem ht
  have hsplit : (createTagTree tags) =
      post.foldl (buildStep tags) (buildStep tags (pre.foldl (buildStep tags)
        { roots := [], children := fun _ => [], level := fun _ => 0,
          isRoot := fun _ => true }) t) := by
    unfold createTagTree
    rw [heq, List.foldl_append, List.foldl_cons]
  have hNd : ((pre.map (·.codename)) ++
      t.codename :: (post.map (·.codename))).Nodup := by
    have := hN
    rw [heq] at this
    simpa [List.map_append] using this
  rw [List.nodup_append] at hNd
  obtain ⟨hNpre, hNcons, hdisj⟩ := hNd
  rw [List.nodup_cons] at hNcons
  have hpre_ne : ∀ u ∈ pre, u.codename ≠ t.codename := by
    intro u hu he
    exact hdisj (List.mem_map.mpr ⟨u, hu, rfl⟩) (he ▸ List.mem_cons_self _ _)
  have hpost_ne : ∀ u ∈ post, u.codename ≠ t.codename := by
    intro u hu he
    exact hNcons.1 (he ▸ List.mem_map.mpr ⟨u, hu, rfl⟩)
  rw [hsplit,
    foldl_level_other tags post _ _ (fun u hu => Or.inl (hpost_ne u hu)),
    foldl_isRoot_other tags post _ _ (fun u hu => Or.inl (hpost_ne u hu)),
    buildStep_level_other tags _ t _ (Or.inr hr),
    buildStep_isRoot_other tags _ t _ (Or.inr hr),
    foldl_level_other tags pre _ _ (fun u hu => Or.inl (hpre_ne u hu)),
    foldl_isRoot_other tags pre _ _ (fun u hu => Or.inl (hpre_ne u hu))]
  exact ⟨rfl, rfl⟩

theorem mem_flatten_of_root {tags : List Tag} {c : String}
    (hc : c ∈ (createTagTree tags).roots) : c ∈ tagPickerFlatten tags := by
  unfold tagPickerFlatten flattenTree
  exact List.mem_flatMap.mpr ⟨c, hc, List.mem_cons_self _ _⟩

/-- C10: the dropdown order is the flattening of the forest built from the
already-filtered list (selection exclusion, then search filter), so a
surviving tag none of whose parent entries resolves inside the filtered
list is shown as a root: it stays in the flattened output with level 0 and
`isRoot = true` instead of disappearing with its filtered-out parents. -/
theorem claimC10 (allTags selected : List Tag) (query : String)
    (hN : (allTags.map (·.codename)).Nodup) :
    flattenedTags allTags selected query =
      tagPickerFlatten (filterBySearch (excludeSelected allTags selected) query) ∧
    ∀ t ∈ filterBySearch (excludeSelected allTags selected) query,
      (∀ p ∈ t.parentTags,
        hasCodename (filterBySearch (excludeSelected allTags selected) query) p = false) →
        t.codename ∈ flattenedTags allTags selected query ∧
        (createTagTree (filterBySearch (excludeSelected allTags selected) query)).level
          t.codename = 0 ∧
        (createTagTree (filterBySearch (excludeSelected allTags selected) query)).isRoot
          t.codename = true := by
  refine ⟨rfl, ?_⟩
  intro t ht hp
  have hNft : ((filterBySearch (excludeSelected allTags selected) query).map
      (·.codename)).Nodup :=
    hN.sublist (List.Sublist.map _
      ((filterBySearch_sublist _ _).trans (excludeSelected_sublist _ _)))
  have hr : resolveParent (filterBySearch (excludeSelected allTags selected) query) t
      = none := by
    unfold resolveParent
    rw [List.find?_eq_none]
    intro p hpm
    simp [hp p hpm]
  have hroot : t.codename ∈
      (createTagTree (filterBySearch (excludeSelected allTags selected) query)).roots :=
    (mem_roots_iff hNft _).mpr
      ⟨List.mem_map.mpr ⟨t, ht, rfl⟩, (par_of_mem hNft ht).trans hr⟩
  rcases unattached_root_state hNft ht hr with ⟨hl, hir⟩
  exact ⟨mem_flatten_of_root hroot, hl, hir⟩

/-- Witness for C10: the only parent of `b` is selected away, so `b` is
displayed as a root. -/
theorem claimC10_witness :
    ((([mkTag "a" [], mkTag "b" ["a"]]).map (·.codename)).Nodup) ∧
    (flattenedTags [mkTag "a" [], mkTag "b" ["a"]] [mkTag "a" []] "" =
      tagPickerFlatten (filterBySearch
        (excludeSelected [mkTag "a" [], mkTag "b" ["a"]] [mkTag "a" []]) "") ∧
    ∀ t ∈ filterBySearch (excludeSelected [mkTag "a" [], mkTag "b" ["a"]] [mkTag "a" []]) "",
      (∀ p ∈ t.parentTags,
        hasCodename (filterBySearch
          (excludeSelected [mkTag "a" [], mkTag "b" ["a"]] [mkTag "a" []]) "") p = false) →
        t.codename ∈ flattenedTags [mkTag "a" [], mkTag "b" ["a"]] [mkTag "a" []] "" ∧
        (createTagTree (filterBySearch
          (excludeSelected [mkTag "a" [], mkTag "b" ["a"]] [mkTag "a" []]) "")).level
            t.codename = 0 ∧
        (createTagTree (filterBySearch
          (excludeSelected [mkTag "a" [], mkTag "b" ["a"]] [mkTag "a" []]) "")).isRoot
            t.codename = true) :=
  ⟨by decide, claimC10 [mkTag "a" [], mkTag "b" ["a"]] [mkTag "a" []] "" (by decide)⟩

/-- Reconciliation of a previously saved codename list against the freshly
fetched tag universe (application component, selected-tags initialization
effect): keep the tags of the universe whose codename is saved, in universe
order. -/
def reconcileSelection (initialCodenames : List String) (allTags : List Tag) :
    List Tag :=
  allTags.filter (fun tag => initialCodenames.contains tag.codename)

/-- C6: reconciliation yields the subsequence of the tag universe whose
codenames are saved, in universe order; saved codenames with no matching
tag contribute nothing (and nothing fails). -/
theorem claimC6 (initialCodenames : List String) (allTags : List Tag) :
    (reconcileSelection initialCodenames allTags).Sublist allTags ∧
    (∀ t : Tag, t ∈ reconcileSelection initialCodenames allTags ↔
      t ∈ allTags ∧ t.codename ∈ initialCodenames) := by
  refine ⟨List.filter_sublist allTags, ?_⟩
  intro t
  rw [reconcileSelection, List.mem_filter]
  constructor
  · rintro ⟨h1, h2⟩
    exact ⟨h1, by simpa using h2⟩
  · rintro ⟨h1, h2⟩
    exact ⟨h1, by simpa using h2⟩

/-! ### Parent-filtered fetching (`fetchTags` with a parent filter) -/

def updateChildren (ch : String → List String) (p c : String) :
    String → List String :=
  fun q => if q = p then ch q ++ [c] else ch q

/-- One tag of the filter hierarchy pass (`utils.ts` lines 142-152): the
node is pushed onto the children list of EVERY parent entry present in the
map, one push per occurrence, unlike the first-match-only `createTagTree`. -/
def fetchChildrenStep (tags : List Tag) (ch : String → List String) (t : Tag) :
    String → List String :=
  t.parentTags.foldl
    (fun ch2 p => if hasCodename tags p then updateChildren ch2 p t.codename else ch2)
    ch

def fetchChildren (tags : List Tag) : String → List String :=
  tags.foldl (fetchChildrenStep tags) (fun _ => [])

/-- The parent-filter branch of `fetchTags` (`utils.ts` lines 130-167):
a falsy (empty) filter skips filtering and returns everything; otherwise
`getDescendants` performs the pre-order walk from the filter node when it
exists, and the result is empty when it does not.  The walk is modelled
with fuel `tags.length + 1`; the JavaScript recursion is unbounded, and on
graphs where it terminates (no reachable cycle) no simple path can exceed
the number of tags, so the fuel is never exhausted there. -/
def fetchTagsParentFilter (tags : List Tag) (parentFilter : String) :
    List String :=
  if parentFilter = "" then tags.map (·.codename)
  else if hasCodename tags parentFilter then
    preorder (fetchChildren tags) (tags.length + 1) parentFilter
  else []

theorem fetchChildrenStep_apply (tags : List Tag) (t : Tag) :
    ∀ (ps : List String) (ch : String → List String) (p : String),
      (ps.foldl (fun ch2 q =>
        if hasCodename tags q then updateChildren ch2 q t.codename else ch2) ch) p
      = ch p ++ (ps.filter (fun q => decide (q = p) && hasCodename tags q)).map
          (fun _ => t.codename) := by
  intro ps
  induction ps with
  | nil => intro ch p; simp
  | cons q rest ih =>
      intro ch p
      rw [List.foldl_cons, List.filter_cons]
      by_cases hq : hasCodename tags q = true
      · rw [if_pos hq]
        by_cases hqp : q = p
        · subst hqp
          simp only [hq, decide_True, Bool.and_self, List.map_cons]
          rw [ih]
          simp [updateChildren]
        · have : (decide (q = p) && hasCodename tags q) = false := by
            simp [hqp]
          rw [this]
          rw [ih]
          have : updateChildren ch q t.codename p = ch p := by
            unfold updateChildren
            exact if_neg (Ne.symm hqp)
          rw [this]
          simp
      · rw [if_neg hq]
        have : (decide (q = p) && hasCodename tags q) = false := by
          simp [Bool.not_eq_true] at hq
          simp [hq]
        rw [this, ih]
        simp

theorem fetchChildren_foldl_apply (tags : List Tag) :
    ∀ (l : List Tag) (ch : String → List String) (p : String),
      (l.foldl (fetchChildrenStep tags) ch) p
      = ch p ++ l.flatMap (fun t =>
          (t.parentTags.filter (fun q => decide (q = p) && hasCodename tags q)).map
            (fun _ => t.codename)) := by
  intro l
  induction l with
  | nil => intro ch p; simp
  | cons t rest ih =>
      intro ch p
      rw [List.foldl_cons, ih, List.flatMap_cons, ← List.append_assoc]
      congr 1
      exact fetchChildrenStep_apply tags t t.parentTags ch p

theorem fetchChildren_apply (tags : List Tag) (p : String) :
    fetchChildren tags p
      = tags.flatMap (fun t =>
          (t.parentTags.filter (fun q => decide (q = p) && hasCodename tags q)).map
            (fun _ => t.codename)) := by
  unfold fetchChildren
  rw [fetchChildren_foldl_apply]
  simp

theorem find?_eq_head?_filter {α : Type} (p : α → Bool) :
    ∀ l : List α, l.find? p = (l.filter p).head? := by
  intro l
  induction l with
  | nil => rfl
  | cons a l ih =>
      by_cases h : p a = true
      · rw [List.find?_cons_of_pos _ h, List.filter_cons_of_pos h]
        rfl
      · rw [List.find?_cons_of_neg _ h, List.filter_cons_of_neg h, ih]

/-- Every tag has at most one parent entry that resolves in the collection
(counting occurrences). -/
def singleResolvingParent (tags : List Tag) : Bool :=
  tags.all (fun t =>
    (t.parentTags.filter (fun p => hasCodename tags p)).length ≤ 1)

theorem single_parent_contribution {tags : List Tag} {t : Tag}
    (hS : (t.parentTags.filter (fun p => hasCodename tags p)).length ≤ 1)
    (p : String) :
    (t.parentTags.filter (fun q => decide (q = p) && hasCodename tags q)).map
        (fun _ => t.codename)
      = if resolveParent tags t = some p then [t.codename] else [] := by
  have hres : resolveParent tags t
      = (t.parentTags.filter (fun q => hasCodename tags q)).head? :=
    find?_eq_head?_filter _ t.parentTags
  have hff : t.parentTags.filter (fun q => decide (q = p) && hasCodename tags q)
      = (t.parentTags.filter (fun q => hasCodename tags q)).filter
          (fun q => decide (q = p)) := by
    rw [List.filter_filter]
  rw [hff]
  cases hF : t.parentTags.filter (fun q => hasCodename tags q) with
  | nil =>
      rw [hF] at hres
      rw [hres]
      simp
  | cons x rest =>
      rw [hF] at hS hres
      have hrest : rest = [] := by
        simp only [List.length_cons] at hS
        exact List.eq_nil_of_length_eq_zero (by omega)
      subst hrest
      rw [hres]
      by_cases hxp : x = p
      · subst hxp
        simp [List.filter_cons]
      · simp [List.filter_cons, hxp, Ne.symm hxp]

theorem flatMap_congr_mem {α β : Type} {l : List α} {f g : α → List β}
    (h : ∀ t ∈ l, f t = g t) : l.flatMap f = l.flatMap g := by
  induction l with
  | nil => rfl
  | cons a l ih =>
      rw [List.flatMap_cons, List.flatMap_cons,
        h a (List.mem_cons_self a l),
        ih (fun t ht => h t (List.mem_cons_of_mem a ht))]

theorem flatMap_if_singleton {α β : Type} (l : List α) (P : α → Prop)
    [DecidablePred P] (f : α → β) :
    l.flatMap (fun t => if P t then [f t] else [])
      = (l.filter (fun t => decide (P t))).map f := by
  induction l with
  | nil => rfl
  | cons a l ih =>
      rw [List.flatMap_cons, List.filter_cons]
      by_cases h : P a <;> simp [h, ih]

/-- With at most one resolving parent entry per tag, the all-matches
children map of the filter pass coincides with the first-match children map
of `createTagTree`. -/
theorem fetchChildren_eq_children {tags : List Tag}
    (hS : singleResolvingParent tags = true) :
    fetchChildren tags = (createTagTree tags).children := by
  funext p
  rw [fetchChildren_apply, createTagTree_children]
  have hpt : ∀ t ∈ tags,
      (t.parentTags.filter (fun q => decide (q = p) && hasCodename tags q)).map
        (fun _ => t.codename)
      = if resolveParent tags t = some p then [t.codename] else [] := by
    intro t ht
    have := List.all_eq_true.mp hS t ht
    exact single_parent_contribution (by simpa using this) p
  rw [flatMap_congr_mem hpt]
  exact flatMap_if_singleton tags (fun t => resolveParent tags t = some p)
    (·.codename)

/-- C5 counterexample: the filter pass attaches a tag to EVERY resolving
parent entry, so a tag with two resolving parents below the filter root is
emitted once per path: filtering `{a, x(parent a), y(parent a),
c(parents [x, y])}` by `a` yields `[a, x, c, y, c]`, with `c` twice, not a
pre-order with each subtree tag exactly once. -/
theorem claimC5_counterexample :
    fetchTagsParentFilter
        [mkTag "a" [], mkTag "x" ["a"], mkTag "y" ["a"], mkTag "c" ["x", "y"]] "a"
      = ["a", "x", "c", "y", "c"] ∧
    (fetchTagsParentFilter
        [mkTag "a" [], mkTag "x" ["a"], mkTag "y" ["a"], mkTag "c" ["x", "y"]] "a").count "c"
      = 2 := by
  constructor
  · decide
  · decide

/-- C5, amended: a non-matching (non-empty) filter codename yields the
empty collection; and when every tag has at most one resolving parent
entry, codenames are duplicate-free and parent chains terminate, the
result for a matching filter is exactly the pre-order traversal of the
subtree of the section-4.2 forest rooted at the filter node (the node
itself first), containing each codename whose parent chain passes through
the filter node exactly once and nothing else.  In general the filter pass
attaches a tag to every resolving parent entry, so tags reachable along
several parent paths are emitted once per path. -/
theorem claimC5_amended (tags : List Tag) (pf : String) (hpf : pf ≠ "")
    (hN : (tags.map (·.codename)).Nodup)
    (hS : singleResolvingParent tags = true)
    (hA : acyclicAttachment tags = true) :
    (hasCodename tags pf = false → fetchTagsParentFilter tags pf = []) ∧
    (hasCodename tags pf = true →
      fetchTagsParentFilter tags pf =
        preorder (createTagTree tags).children (tags.length + 1) pf ∧
      ∀ c ∈ tags.map (·.codename),
        (fetchTagsParentFilter tags pf).count c =
          if occursWithin tags (tags.length + 1) c pf then 1 else 0) := by
  constructor
  · intro hno
    unfold fetchTagsParentFilter
    rw [if_neg hpf, hno]
    rfl
  · intro hyes
    have heq : fetchTagsParentFilter tags pf =
        preorder (createTagTree tags).children (tags.length + 1) pf := by
      unfold fetchTagsParentFilter
      rw [if_neg hpf, hyes, fetchChildren_eq_children hS]
      rfl
    refine ⟨heq, ?_⟩
    intro c hc
    have hG : iterPar tags (tags.length + 1) c = none := by
      rcases List.mem_map.mp hc with ⟨t, htm, rfl⟩
      have := List.all_eq_true.mp hA t htm
      simpa [chainTerminates] using this
    rw [heq]
    exact count_preorder hN hG (tags.length + 1) pf

/-- Witness for the amended C5: a three-tag chain filtered at the middle
node yields the subtree `[b, c]`. -/
theorem claimC5_amended_witness :
    (("b" : String) ≠ "" ∧
      (([mkTag "a" [], mkTag "b" ["a"], mkTag "c" ["b"]]).map (·.codename)).Nodup ∧
      singleResolvingParent [mkTag "a" [], mkTag "b" ["a"], mkTag "c" ["b"]] = true ∧
      acyclicAttachment [mkTag "a" [], mkTag "b" ["a"], mkTag "c" ["b"]] = true) ∧
    ((hasCodename [mkTag "a" [], mkTag "b" ["a"], mkTag "c" ["b"]] "b" = false →
      fetchTagsParentFilter [mkTag "a" [], mkTag "b" ["a"], mkTag "c" ["b"]] "b" = []) ∧
    (hasCodename [mkTag "a" [], mkTag "b" ["a"], mkTag "c" ["b"]] "b" = true →
      fetchTagsParentFilter [mkTag "a" [], mkTag "b" ["a"], mkTag "c" ["b"]] "b" =
        preorder (createTagTree [mkTag "a" [], mkTag "b" ["a"], mkTag "c" ["b"]]).children
          (([mkTag "a" [], mkTag "b" ["a"], mkTag "c" ["b"]] : List Tag).length + 1) "b" ∧
      ∀ c ∈ ([mkTag "a" [], mkTag "b" ["a"], mkTag "c" ["b"]]).map (·.codename),
        (fetchTagsParentFilter [mkTag "a" [], mkTag "b" ["a"], mkTag "c" ["b"]] "b").count c =
          if occursWithin [mkTag "a" [], mkTag "b" ["a"], mkTag "c" ["b"]]
              (([mkTag "a" [], mkTag "b" ["a"], mkTag "c" ["b"]] : List Tag).length + 1) c "b"
          then 1 else 0)) :=
  ⟨⟨by decide, by decide, by decide, by decide⟩,
    claimC5_amended [mkTag "a" [], mkTag "b" ["a"], mkTag "c" ["b"]] "b"
      (by decide) (by decide) (by decide) (by decide)⟩

/-! ### JSON values and parsing

`JSON.parse` and `JSON.stringify` are host-runtime primitives; they are
modelled by an executable parser and printer over Lean strings, faithful to
the JSON grammar as the runtime implements it, with these documented
deviations on inputs no claim exercises: numeric literals are kept as
lexemes (their numeric value is never inspected by the widget), and
surrogate escape sequences are rejected instead of producing unpaired
UTF-16 code units, which Lean strings cannot represent. -/

inductive Json where
  | null : Json
  | undef : Json
  | bool : Bool → Json
  | num : String → Json
  | str : String → Json
  | arr : List Json → Json
  | obj : List (String × Json) → Json

/-- JSON insignificant whitespace. -/
def jsonWs (c : Char) : Bool :=
  c = ' ' ∨ c = '\t' ∨ c = '\n' ∨ c = '\r'

def skipWs : List Char → List Char
  | [] => []
  | c :: cs => if jsonWs c then skipWs cs else c :: cs

theorem skipWs_length : ∀ cs, (skipWs cs).length ≤ cs.length := by
  intro cs
  induction cs with
  | nil => simp [skipWs]
  | cons c cs ih =>
      rw [skipWs]
      by_cases h : jsonWs c = true
      · rw [if_pos h]; exact Nat.le_succ_of_le ih
      · rw [if_neg h]

theorem skipWs_not_ws {c : Char} (h : jsonWs c = false) (cs : List Char) :
    skipWs (c :: cs) = c :: cs := by
  rw [skipWs, h]
  rfl

def hexVal (c : Char) : Option Nat :=
  if '0' ≤ c ∧ c ≤ '9' then some (c.toNat - '0'.toNat)
  else if 'a' ≤ c ∧ c ≤ 'f' then some (c.toNat - 'a'.toNat + 10)
  else if 'A' ≤ c ∧ c ≤ 'F' then some (c.toNat - 'A'.toNat + 10)
  else none

/-- Scan a JSON string body after the opening quote: literal characters,
the named escapes, and `u`-escapes; stops at the closing quote and yields
the decoded characters plus what follows.  Raw control characters are a
syntax error, as in the JSON grammar. -/
def strBody : (cs : List Char) → Option (List Char × {r : List Char // r.length < cs.length})
  | [] => none
  | c :: cs =>
    if c = '"' then some ([], ⟨cs, by simp⟩)
    else if c = '\\' then
      match cs with
      | [] => none
      | e :: cs' =>
        if e = '"' then
          (strBody cs').map (fun p => ('"' :: p.1,
            ⟨p.2.val, by have := p.2.property; simp only [List.length_cons]; omega⟩))
        else if e = '\\' then
          (strBody cs').map (fun p => ('\\' :: p.1,
            ⟨p.2.val, by have := p.2.property; simp only [List.length_cons]; omega⟩))
        else if e = '/' then
          (strBody cs').map (fun p => ('/' :: p.1,
            ⟨p.2.val, by have := p.2.property; simp only [List.length_cons]; omega⟩))
        else if e = 'b' then
          (strBody cs').map (fun p => (Char.ofNat 8 :: p.1,
            ⟨p.2.val, by have := p.2.property; simp only [List.length_cons]; omega⟩))
        else if e = 'f' then
          (strBody cs').map (fun p => (Char.ofNat 12 :: p.1,
            ⟨p.2.val, by have := p.2.property; simp only [List.length_cons]; omega⟩))
        else if e = 'n' then
          (strBody cs').map (fun p => ('\n' :: p.1,
            ⟨p.2.val, by have := p.2.property; simp only [List.length_cons]; omega⟩))
        else if e = 'r' then
          (strBody cs').map (fun p => ('\r' :: p.1,
            ⟨p.2.val, by have := p.2.property; simp only [List.length_cons]; omega⟩))
        else if e = 't' then
          (strBody cs').map (fun p => ('\t' :: p.1,
            ⟨p.2.val, by have := p.2.property; simp only [List.length_cons]; omega⟩))
        else if e = 'u' then
          match cs' with
          | h1 :: h2 :: h3 :: h4 :: cs'' =>
            match hexVal h1, hexVal h2, hexVal h3, hexVal h4 with
            | some a, some b, some c2, some d =>
              let n := ((a * 16 + b) * 16 + c2) * 16 + d
              if n < 0xd800 ∨ (0xe000 ≤ n ∧ n < 0x110000) then
                (strBody cs'').map (fun p => (Char.ofNat n :: p.1,
                  ⟨p.2.val, by have := p.2.property; simp only [List.length_cons]; omega⟩))
              else none
            | _, _, _, _ => none
          | _ => none
        else none
    else if c.toNat < 32 then none
    else
      (strBody cs).map (fun p => (c :: p.1,
        ⟨p.2.val, by have := p.2.property; simp only [List.length_cons]; omega⟩))

def takeDigits : List Char → List Char × List Char
  | [] => ([], [])
  | c :: cs =>
      if c.isDigit then (c :: (takeDigits cs).1, (takeDigits cs).2)
      else ([], c :: cs)

theorem takeDigits_length : ∀ cs, (takeDigits cs).2.length ≤ cs.length := by
  intro cs
  induction cs with
  | nil => simp [takeDigits]
  | cons c cs ih =>
      rw [takeDigits]
      by_cases h : c.isDigit = true
      · rw [if_pos h]; exact Nat.le_succ_of_le ih
      · rw [if_neg h]

def parseIntDigits : (cs : List Char) →
    Option (List Char × {r : List Char // r.length < cs.length})
  | [] => none
  | c :: rest =>
      if c = '0' then some (['0'], ⟨rest, by simp⟩)
      else if c.isDigit then
        some (c :: (takeDigits rest).1,
          ⟨(takeDigits rest).2, by
            have := takeDigits_length rest
            simp only [List.length_cons]
            omega⟩)
      else none

def parseFrac : (cs : List Char) →
    Option (List Char × {r : List Char // r.length ≤ cs.length})
  | [] => some ([], ⟨[], by simp⟩)
  | c :: rest =>
      if c = '.' then
        match rest with
        | d :: rest2 =>
            if d.isDigit then
              some ('.' :: (takeDigits (d :: rest2)).1,
                ⟨(takeDigits (d :: rest2)).2, by
                  have := takeDigits_length (d :: rest2)
                  simp only [List.length_cons] at *
                  omega⟩)
            else none
        | [] => none
      else some ([], ⟨c :: rest, by simp⟩)

def parseExp : (cs : List Char) →
    Option (List Char × {r : List Char // r.length ≤ cs.length})
  | [] => some ([], ⟨[], by simp⟩)
  | c :: rest =>
      if c = 'e' ∨ c = 'E' then
        match rest with
        | s :: rest2 =>
            if s = '+' ∨ s = '-' then
              match rest2 with
              | d :: rest3 =>
                  if d.isDigit then
                    some (c :: s :: (takeDigits (d :: rest3)).1,
                      ⟨(takeDigits (d :: rest3)).2, by
                        have := takeDigits_length (d :: rest3)
                        simp only [List.length_cons] at *
                        omega⟩)
                  else none
              | [] => none
            else if s.isDigit then
              some (c :: (takeDigits (s :: rest2)).1,
                ⟨(takeDigits (s :: rest2)).2, by
                  have := takeDigits_length (s :: rest2)
                  simp only [List.length_cons] at *
                  omega⟩)
            else none
        | [] => none
      else some ([], ⟨c :: rest, by simp⟩)

def parseNum : (cs : List Char) →
    Option (List Char × {r : List Char // r.length < cs.length})
  | [] => none
  | c :: rest =>
      if c = '-' then
        match parseIntDigits rest with
        | some (i, r1) =>
            match parseFrac r1.val with
            | some (f, r2) =>
                match parseExp r2.val with
                | some (e, r3) =>
                    some ('-' :: (i ++ f ++ e),
                      ⟨r3.val, by
                        have a1 := r1.property
                        have a2 := r2.property
                        have a3 := r3.property
                        simp only [List.length_cons]
                        omega⟩)
                | none => none
            | none => none
        | none => none
      else
        match parseIntDigits (c :: rest) with
        | some (i, r1) =>
            match parseFrac r1.val with
            | some (f, r2) =>
                match parseExp r2.val with
                | some (e, r3) =>
                    some (i ++ f ++ e,
                      ⟨r3.val, by
                        have a1 := r1.property
                        have a2 := r2.property
                        have a3 := r3.property
                        omega⟩)
                | none => none
            | none => none
        | none => none

def dropLit : (lit cs : List Char) → Option (List Char)
  | [], cs => some cs
  | _ :: _, [] => none
  | l :: ls, c :: cs => if c = l then dropLit ls cs else none

theorem dropLit_length : ∀ {lit cs r : List Char},
    dropLit lit cs = some r → r.length + lit.length = cs.length := by
  intro lit
  induction lit with
  | nil =>
      intro cs r h
      rw [dropLit] at h
      rw [Option.some.inj h]
      simp
  | cons l ls ih =>
      intro cs r h
      match cs with
      | [] => exact absurd h (by rw [dropLit]; simp)
      | c :: cs' =>
          rw [dropLit] at h
          by_cases hc : c = l
          · rw [if_pos hc] at h
            have := ih h
            simp only [List.length_cons]
            omega
          · rw [if_neg hc] at h
            exact absurd h (by simp)

/-- Skip whitespace, then split off the first character, keeping the length
bound needed by the parsers below. -/
def sw (x : List Char) : Option (Char × {t : List Char // t.length + 1 ≤ x.length}) :=
  match hw : skipWs x with
  | c :: t => some (c, ⟨t, by
      have h1 := skipWs_length x
      have h2 := congrArg List.length hw
      simp only [List.length_cons] at h2
      omega⟩)
  | [] => none

theorem of_projEq {β : Type} {P : List Char → Prop}
    {o : Option (β × {r : List Char // P r})} {a : β} {r : List Char}
    (h : o.map (fun p => (p.1, p.2.val)) = some (a, r)) :
    ∃ pf : P r, o = some (a, ⟨r, pf⟩) := by
  cases o with
  | none => simp at h
  | some p =>
      obtain ⟨v, rv, rpf⟩ := p
      simp only [Option.map_some', Option.some.injEq, Prod.mk.injEq] at h
      obtain ⟨h1, h2⟩ := h
      subst h1
      subst h2
      exact ⟨rpf, rfl⟩

theorem swP_eq {x : List Char} {c : Char} {t : List Char} (h : skipWs x = c :: t) :
    (sw x).map (fun p => (p.1, p.2.val)) = some (c, t) := by
  rw [sw.eq_def]
  split
  · rename_i c' t' hw
    rw [h] at hw
    obtain ⟨h1, h2⟩ := List.cons.inj hw
    subst h1
    subst h2
    rfl
  · rename_i hw
    rw [h] at hw
    exact absurd hw (by simp)

mutual

/-- Parse one JSON value at the head of the input (no leading whitespace). -/
def parseValue (cs : List Char) :
    Option (Json × {r : List Char // r.length < cs.length}) :=
  match cs with
  | [] => none
  | c :: rest =>
    if c = '"' then
      match strBody rest with
      | some (s, r) => some (Json.str ⟨s⟩,
          ⟨r.val, by
            have := r.property
            simp only [List.length_cons]
            omega⟩)
      | none => none
    else if c = '[' then
      match parseArrayBody (skipWs rest) with
      | some (v, r) => some (v,
          ⟨r.val, by
            have h1 := r.property
            have h2 := skipWs_length rest
            simp only [List.length_cons]
            omega⟩)
      | none => none
    else if c = Char.ofNat 123 then
      match parseObjBody (skipWs rest) with
      | some (v, r) => some (v,
          ⟨r.val, by
            have h1 := r.property
            have h2 := skipWs_length rest
            simp only [List.length_cons]
            omega⟩)
      | none => none
    else if c = 'n' then
      match h : dropLit ['u', 'l', 'l'] rest with
      | some r2 => some (Json.null,
          ⟨r2, by
            have := dropLit_length h
            simp only [List.length_cons] at *
            omega⟩)
      | none => none
    else if c = 't' then
      match h : dropLit ['r', 'u', 'e'] rest with
      | some r2 => some (Json.bool true,
          ⟨r2, by
            have := dropLit_length h
            simp only [List.length_cons] at *
            omega⟩)
      | none => none
    else if c = 'f' then
      match h : dropLit ['a', 'l', 's', 'e'] rest with
      | some r2 => some (Json.bool false,
          ⟨r2, by
            have := dropLit_length h
            simp only [List.length_cons] at *
            omega⟩)
      | none => none
    else if c = '-' ∨ c.isDigit then
      match parseNum (c :: rest) with
      | some (lex, r) => some (Json.num ⟨lex⟩, r)
      | none => none
    else none
termination_by (cs.length, 0)
decreasing_by
  · apply Prod.Lex.left
    have := skipWs_length rest
    simp only [List.length_cons]
    omega
  · apply Prod.Lex.left
    have := skipWs_length rest
    simp only [List.length_cons]
    omega

/-- Parse the items of a non-empty array, accumulating parsed values; the
input starts at the first character of an item. -/
def parseItems (acc : List Json) (cs : List Char) :
    Option (List Json × {r : List Char // r.length < cs.length}) :=
  match parseValue cs with
  | none => none
  | some (v, r1) =>
      match sw r1.val with
      | some (c2, r3) =>
          if c2 = ',' then
            match parseItems (acc ++ [v]) (skipWs r3.val) with
            | some (vs, r4) => some (vs,
                ⟨r4.val, by
                  have ha := r4.property
                  have hb := skipWs_length r3.val
                  have hc := r3.property
                  have he := r1.property
                  omega⟩)
            | none => none
          else if c2 = ']' then
            some (acc ++ [v],
              ⟨r3.val, by
                have hc := r3.property
                have he := r1.property
                omega⟩)
          else none
      | none => none
termination_by (cs.length, 1)
decreasing_by
  · apply Prod.Lex.right
    omega
  · apply Prod.Lex.left
    have hb := skipWs_length r3.val
    have hc := r3.property
    have he := r1.property
    omega

/-- Parse an array body after the opening bracket and leading whitespace. -/
def parseArrayBody (cs : List Char) :
    Option (Json × {r : List Char // r.length < cs.length}) :=
  match cs with
  | [] => none
  | c :: rest =>
      if c = ']' then some (Json.arr [], ⟨rest, by simp⟩)
      else
        match parseItems [] (c :: rest) with
        | some (vs, r) => some (Json.arr vs, r)
        | none => none
termination_by (cs.length, 2)
decreasing_by
  apply Prod.Lex.right
  omega

/-- Parse the members of a non-empty object, accumulating key-value pairs;
the input starts at the opening quote of a key. -/
def parseMembers (acc : List (String × Json)) (cs : List Char) :
    Option (List (String × Json) × {r : List Char // r.length < cs.length}) :=
  match cs with
  | [] => none
  | c :: rest =>
      if c = '"' then
        match strBody rest with
        | none => none
        | some (k, r1) =>
            match sw r1.val with
            | some (c2, r3) =>
                if c2 = ':' then
                  match parseValue (skipWs r3.val) with
                  | none => none
                  | some (v, r4) =>
                      match sw r4.val with
                      | some (c5, r6) =>
                          if c5 = ',' then
                            match parseMembers (acc ++ [(⟨k⟩, v)]) (skipWs r6.val) with
                            | some (fs, r7) => some (fs,
                                ⟨r7.val, by
                                  have ha := r7.property
                                  have hb := skipWs_length r6.val
                                  have hc := r6.property
                                  have hd := skipWs_length r3.val
                                  have he := r4.property
                                  have hf := r3.property
                                  have hi := r1.property
                                  simp only [List.length_cons]
                                  omega⟩)
                            | none => none
                          else if c5 = Char.ofNat 125 then
                            some (acc ++ [(⟨k⟩, v)],
                              ⟨r6.val, by
                                have hc := r6.property
                                have hd := skipWs_length r3.val
                                have he := r4.property
                                have hf := r3.property
                                have hi := r1.property
                                simp only [List.length_cons]
                                omega⟩)
                          else none
                      | none => none
                else none
            | none => none
      else none
termination_by (cs.length, 1)
decreasing_by
  · apply Prod.Lex.left
    have hd := skipWs_length r3.val
    have hf := r3.property
    have hi := r1.property
    simp only [List.length_cons]
    omega
  · apply Prod.Lex.left
    have hb := skipWs_length r6.val
    have hc := r6.property
    have hd := skipWs_length r3.val
    have he := r4.property
    have hf := r3.property
    have hi := r1.property
    simp only [List.length_cons]
    omega

/-- Parse an object body after the opening brace and leading whitespace. -/
def parseObjBody (cs : List Char) :
    Option (Json × {r : List Char // r.length < cs.length}) :=
  match cs with
  | [] => none
  | c :: rest =>
      if c = Char.ofNat 125 then some (Json.obj [], ⟨rest, by simp⟩)
      else
        match parseMembers [] (c :: rest) with
        | some (fs, r) => some (Json.obj fs, r)
        | none => none
termination_by (cs.length, 2)
decreasing_by
  apply Prod.Lex.right
  omega

end

/-- `JSON.parse`: optional whitespace, one value, optional whitespace,
end of input; anything else is a parse failure. -/
def jsonParse (s : String) : Option Json :=
  match parseValue (skipWs s.toList) with
  | some (v, r) => if skipWs r.val = [] then some v else none
  | none => none

/-! ### Saving: `formatTagsForSaving` and `JSON.stringify` -/

/-- The enhanced saved format (`types.ts`): one record per selected tag. -/
structure SavedTagInfo where
  codename : String
  name : String
  displayName : String
  id : String
  parentTags : List String
deriving DecidableEq, Repr

/-- `formatTagsForSaving` (`utils.ts` lines 182-190) and the identical
inline mapping of the save effect in the application component: the
`displayName` falls back to the system name when the element name is empty
(JavaScript truthiness of a string). -/
def formatTagsForSaving (tags : List Tag) : List SavedTagInfo :=
  tags.map (fun tag =>
    { codename := tag.codename,
      name := tag.name,
      displayName := if tag.displayName ≠ "" then tag.displayName else tag.name,
      id := tag.id,
      parentTags := tag.parentTags })

def hexDigit (n : Nat) : Char :=
  if n < 10 then Char.ofNat ('0'.toNat + n) else Char.ofNat ('a'.toNat + n - 10)

/-- Escaping of one character by `JSON.stringify`: quote and backslash, the
named control escapes, `u00XX` for the remaining control characters, and
everything else verbatim. -/
def escChar (c : Char) : List Char :=
  if c = '"' then ['\\', '"']
  else if c = '\\' then ['\\', '\\']
  else if c = Char.ofNat 8 then ['\\', 'b']
  else if c = Char.ofNat 9 then ['\\', 't']
  else if c = Char.ofNat 10 then ['\\', 'n']
  else if c = Char.ofNat 12 then ['\\', 'f']
  else if c = Char.ofNat 13 then ['\\', 'r']
  else if c.toNat < 32 then
    ['\\', 'u', '0', '0', hexDigit (c.toNat / 16), hexDigit (c.toNat % 16)]
  else [c]

def quoteStr (s : String) : List Char :=
  '"' :: (s.toList.flatMap escChar ++ ['"'])

def commaSep : List (List Char) → List Char
  | [] => []
  | [x] => x
  | x :: y :: xs => x ++ ',' :: commaSep (y :: xs)

def stringifyStrArr (ps : List String) : List Char :=
  '[' :: (commaSep (ps.map quoteStr) ++ [']'])

/-- `JSON.stringify` of one saved record: compact output, keys in insertion
order (codename, name, displayName, id, parentTags). -/
def stringifySaved (s : SavedTagInfo) : List Char :=
  Char.ofNat 123 ::
    (quoteStr "codename" ++ ':' :: quoteStr s.codename ++
     ',' :: quoteStr "name" ++ ':' :: quoteStr s.name ++
     ',' :: quoteStr "displayName" ++ ':' :: quoteStr s.displayName ++
     ',' :: quoteStr "id" ++ ':' :: quoteStr s.id ++
     ',' :: quoteStr "parentTags" ++ ':' :: stringifyStrArr s.parentTags ++
     [Char.ofNat 125])

/-- The save effect of the application component:
`JSON.stringify(selectedItems.map(tag => ({codename, name, displayName, id,
parentTags})))`. -/
def serializeSelection (tags : List Tag) : String :=
  ⟨'[' :: (commaSep ((formatTagsForSaving tags).map stringifySaved) ++ [']'])⟩

/-- The JSON value `jsonParse` recovers from one stringified record. -/
def savedToJson (s : SavedTagInfo) : Json :=
  Json.obj [("codename", Json.str s.codename), ("name", Json.str s.name),
    ("displayName", Json.str s.displayName), ("id", Json.str s.id),
    ("parentTags", Json.arr (s.parentTags.map Json.str))]

/-! ### Reading: `parseInitialValue` -/

/-- `typeof v === 'object'` in JavaScript: objects, arrays and null. -/
def jsTypeofObject : Json → Bool
  | Json.null => true
  | Json.arr _ => true
  | Json.obj _ => true
  | _ => false

/-- Property lookup on a JavaScript object: with duplicate keys the last
assignment wins. -/
def objLookupLast (fields : List (String × Json)) (k : String) : Option Json :=
  ((fields.filter (fun f => f.1 = k)).getLast?).map (fun f => f.2)

/-- The member access `v.codename`: `none` models a thrown TypeError
(access on null or undefined), `some Json.undef` a defined access whose
result is undefined. -/
def jsMemberCodename : Json → Option Json
  | Json.null => none
  | Json.undef => none
  | Json.obj fields => some ((objLookupLast fields "codename").getD Json.undef)
  | _ => some Json.undef

/-- A numeric lexeme denotes zero exactly when its mantissa has no nonzero
digit (the exponent cannot make a nonzero mantissa zero). -/
def numLexIsZero (s : String) : Bool :=
  let cs := match s.toList with
    | '-' :: r => r
    | r => r
  (cs.takeWhile (fun c => c ≠ 'e' ∧ c ≠ 'E')).all (fun c => c = '0' ∨ c = '.')

/-- JavaScript truthiness of a parsed value. -/
def jsTruthy : Json → Bool
  | Json.undef => false
  | Json.null => false
  | Json.bool b => b
  | Json.num lex => ¬ numLexIsZero lex
  | Json.str s => s ≠ ""
  | Json.arr _ => true
  | Json.obj _ => true

/-- `parseInitialValue` (`utils.ts` lines 11-23).  The dynamic JavaScript
value is kept as `Json`: the current-format branch projects every element
to its `codename` member, the legacy branch returns the decoded array
unchanged, a decode failure (or a member access thrown inside the `try`)
falls back to the raw string as a single bare codename, and a successful
decode of a non-array yields the empty list. -/
def parseInitialValue (value : String) : List Json :=
  match jsonParse value with
  | none => [Json.str value]
  | some (Json.arr xs) =>
    match xs with
    | [] => []
    | x :: _ =>
      if jsTypeofObject x then
        match jsMemberCodename x with
        | none => [Json.str value]
        | some cn =>
          if jsTruthy cn then
            match xs.mapM jsMemberCodename with
            | none => [Json.str value]
            | some ys => ys
          else xs
      else xs
  | some _ => []

/-- Initialization of the saved codenames (application component, lines
279-283): the saved value is parsed only when the string is truthy, that
is, non-empty; otherwise the initial codename list stays empty. -/
def initCodenames (value : String) : List Json :=
  if value ≠ "" then parseInitialValue value else []

/-! ### Round trip of the saved value -/

theorem hexVal_hexDigit {n : Nat} (h : n < 16) : hexVal (hexDigit n) = some n := by
  interval_cases n <;> decide

theorem rest_lt_escape (cs rest : List Char) :
    rest.length < (cs.flatMap escChar ++ '"' :: rest).length := by
  simp only [List.length_append, List.length_cons]
  omega

/-- Projections of the parsers to plain pairs, used by all lemmas below
(the length bound of the subtype is proof-irrelevant bookkeeping). -/
def strBodyP (cs : List Char) : Option (List Char × List Char) :=
  (strBody cs).map (fun p => (p.1, p.2.val))

def parseValueP (cs : List Char) : Option (Json × List Char) :=
  (parseValue cs).map (fun p => (p.1, p.2.val))

def parseItemsP (acc : List Json) (cs : List Char) :
    Option (List Json × List Char) :=
  (parseItems acc cs).map (fun p => (p.1, p.2.val))

def parseMembersP (acc : List (String × Json)) (cs : List Char) :
    Option (List (String × Json) × List Char) :=
  (parseMembers acc cs).map (fun p => (p.1, p.2.val))

theorem strBodyP_close (T : List Char) : strBodyP ('"' :: T) = some ([], T) := by
  rw [strBodyP, strBody.eq_def]
  simp

theorem strBodyP_esc_quote (T : List Char) :
    strBodyP ('\\' :: '"' :: T) = (strBodyP T).map (fun q => ('"' :: q.1, q.2)) := by
  rw [strBodyP, strBodyP, strBody.eq_def]
  simp only [reduceIte]
  cases hT : strBody T <;> simp

theorem strBodyP_esc_backslash (T : List Char) :
    strBodyP ('\\' :: '\\' :: T) = (strBodyP T).map (fun q => ('\\' :: q.1, q.2)) := by
  rw [strBodyP, strBodyP, strBody.eq_def]
  simp only [reduceIte]
  cases hT : strBody T <;> simp

theorem strBodyP_esc_b (T : List Char) :
    strBodyP ('\\' :: 'b' :: T)
      = (strBodyP T).map (fun q => (Char.ofNat 8 :: q.1, q.2)) := by
  rw [strBodyP, strBodyP, strBody.eq_def]
  simp only [reduceIte]
  cases hT : strBody T <;> simp

theorem strBodyP_esc_t (T : List Char) :
    strBodyP ('\\' :: 't' :: T)
      = (strBodyP T).map (fun q => (Char.ofNat 9 :: q.1, q.2)) := by
  rw [strBodyP, strBodyP, strBody.eq_def]
  simp only [reduceIte]
  cases hT : strBody T <;> simp

theorem strBodyP_esc_n (T : List Char) :
    strBodyP ('\\' :: 'n' :: T)
      = (strBodyP T).map (fun q => (Char.ofNat 10 :: q.1, q.2)) := by
  rw [strBodyP, strBodyP, strBody.eq_def]
  simp only [reduceIte]
  cases hT : strBody T <;> simp

theorem strBodyP_esc_f (T : List Char) :
    strBodyP ('\\' :: 'f' :: T)
      = (strBodyP T).map (fun q => (Char.ofNat 12 :: q.1, q.2)) := by
  rw [strBodyP, strBodyP, strBody.eq_def]
  simp only [reduceIte]
  cases hT : strBody T <;> simp

theorem strBodyP_esc_r (T : List Char) :
    strBodyP ('\\' :: 'r' :: T)
      = (strBodyP T).map (fun q => (Char.ofNat 13 :: q.1, q.2)) := by
  rw [strBodyP, strBodyP, strBody.eq_def]
  simp only [reduceIte]
  cases hT : strBody T <;> simp

theorem strBodyP_esc_u (n : Nat) (hn : n < 32) (T : List Char) :
    strBodyP ('\\' :: 'u' :: '0' :: '0' ::
        hexDigit (n / 16) :: hexDigit (n % 16) :: T)
      = (strBodyP T).map (fun q => (Char.ofNat n :: q.1, q.2)) := by
  rw [strBodyP, strBodyP, strBody.eq_def]
  simp only [reduceIte]
  rw [show hexVal '0' = some 0 from rfl,
    hexVal_hexDigit (show n / 16 < 16 by omega),
    hexVal_hexDigit (show n % 16 < 16 by
      have := Nat.mod_lt n (show 0 < 16 by omega)
      omega)]
  have hval : ((0 * 16 + 0) * 16 + n / 16) * 16 + n % 16 = n := by
    have := Nat.div_add_mod n 16
    omega
  simp only [hval]
  rw [if_pos (Or.inl (by omega : n < 0xd800))]
  cases hT : strBody T <;> simp

theorem strBodyP_lit {c : Char} (h1 : ¬c = '"') (h2 : ¬c = '\\')
    (h3 : ¬c.toNat < 32) (T : List Char) :
    strBodyP (c :: T) = (strBodyP T).map (fun q => (c :: q.1, q.2)) := by
  rw [strBodyP, strBodyP, strBody.eq_def]
  simp only [h1, h2, h3, reduceIte, ite_false]
  cases hT : strBody T <;> simp

theorem strBodyP_round : ∀ (cs rest : List Char),
    strBodyP (cs.flatMap escChar ++ '"' :: rest) = some (cs, rest) := by
  intro cs
  induction cs with
  | nil =>
      intro rest
      simp only [List.flatMap_nil, List.nil_append]
      exact strBodyP_close rest
  | cons c cs ih =>
      intro rest
      rw [List.flatMap_cons, List.append_assoc]
      by_cases h1 : c = '"'
      · subst h1
        rw [show escChar '"' = ['\\', '"'] from rfl]
        simp only [List.cons_append, List.nil_append]
        rw [strBodyP_esc_quote, ih]
        rfl
      · by_cases h2 : c = '\\'
        · subst h2
          rw [show escChar '\\' = ['\\', '\\'] from rfl]
          simp only [List.cons_append, List.nil_append]
          rw [strBodyP_esc_backslash, ih]
          rfl
        · by_cases h3 : c = Char.ofNat 8
          · subst h3
            rw [show escChar (Char.ofNat 8) = ['\\', 'b'] from rfl]
            simp only [List.cons_append, List.nil_append]
            rw [strBodyP_esc_b, ih]
            rfl
          · by_cases h4 : c = Char.ofNat 9
            · subst h4
              rw [show escChar (Char.ofNat 9) = ['\\', 't'] from rfl]
              simp only [List.cons_append, List.nil_append]
              rw [strBodyP_esc_t, ih]
              rfl
            · by_cases h5 : c = Char.ofNat 10
              · subst h5
                rw [show escChar (Char.ofNat 10) = ['\\', 'n'] from rfl]
                simp only [List.cons_append, List.nil_append]
                rw [strBodyP_esc_n, ih]
                rfl
              · by_cases h6 : c = Char.ofNat 12
                · subst h6
                  rw [show escChar (Char.ofNat 12) = ['\\', 'f'] from rfl]
                  simp only [List.cons_append, List.nil_append]
                  rw [strBodyP_esc_f, ih]
                  rfl
                · by_cases h7 : c = Char.ofNat 13
                  · subst h7
                    rw [show escChar (Char.ofNat 13) = ['\\', 'r'] from rfl]
                    simp only [List.cons_append, List.nil_append]
                    rw [strBodyP_esc_r, ih]
                    rfl
                  · by_cases h8 : c.toNat < 32
                    · have hesc : escChar c = ['\\', 'u', '0', '0',
                          hexDigit (c.toNat / 16), hexDigit (c.toNat % 16)] := by
                        rw [escChar, if_neg h1, if_neg h2, if_neg h3, if_neg h4,
                          if_neg h5, if_neg h6, if_neg h7, if_pos h8]
                      rw [hesc]
                      simp only [List.cons_append, List.nil_append]
                      rw [strBodyP_esc_u c.toNat h8, ih]
                      simp only [Option.map_some', Char.ofNat_toNat]
                    · have hesc : escChar c = [c] := by
                        rw [escChar, if_neg h1, if_neg h2, if_neg h3, if_neg h4,
                          if_neg h5, if_neg h6, if_neg h7, if_neg h8]
                      rw [hesc]
                      simp only [List.cons_append, List.nil_append]
                      rw [strBodyP_lit h1 h2 h8, ih]
                      rfl

def parseArrayBodyP (cs : List Char) : Option (Json × List Char) :=
  (parseArrayBody cs).map (fun p => (p.1, p.2.val))

def parseObjBodyP (cs : List Char) : Option (Json × List Char) :=
  (parseObjBody cs).map (fun p => (p.1, p.2.val))

theorem parseValueP_quote (s : String) (rest : List Char) :
    parseValueP (quoteStr s ++ rest) = some (Json.str s, rest) := by
  have hq : quoteStr s ++ rest = '"' :: (s.toList.flatMap escChar ++ '"' :: rest) := by
    simp [quoteStr, List.append_assoc]
  rw [hq, parseValueP, parseValue.eq_def]
  simp only [reduceIte]
  have h := strBodyP_round s.toList rest
  rw [strBodyP] at h
  obtain ⟨pf, hS⟩ := of_projEq h
  rw [hS]
  simp

theorem parseItemsP_last {α : Type} (toCh : α → List Char) (toJ : α → Json)
    (helem : ∀ (x : α) (r : List Char), parseValueP (toCh x ++ r) = some (toJ x, r))
    (e : α) (acc : List Json) (rest : List Char) :
    parseItemsP acc (toCh e ++ ']' :: rest) = some (acc ++ [toJ e], rest) := by
  rw [parseItemsP, parseItems.eq_def]
  have h := helem e (']' :: rest)
  rw [parseValueP] at h
  obtain ⟨pf, hV⟩ := of_projEq h
  rw [hV]
  have hsw := swP_eq (skipWs_not_ws (show jsonWs ']' = false by decide) rest)
  obtain ⟨pf2, hS⟩ := of_projEq hsw
  simp [hS]

theorem parseItemsP_step {α : Type} (toCh : α → List Char) (toJ : α → Json)
    (helem : ∀ (x : α) (r : List Char), parseValueP (toCh x ++ r) = some (toJ x, r))
    (e : α) (acc : List Json) (T2 : List Char) :
    parseItemsP acc (toCh e ++ ',' :: T2)
      = parseItemsP (acc ++ [toJ e]) (skipWs T2) := by
  conv_lhs => rw [parseItemsP, parseItems.eq_def]
  have h := helem e (',' :: T2)
  rw [parseValueP] at h
  obtain ⟨pf, hV⟩ := of_projEq h
  rw [hV]
  have hsw := swP_eq (skipWs_not_ws (show jsonWs ',' = false by decide) T2)
  obtain ⟨pf2, hS⟩ := of_projEq hsw
  simp only [hS, reduceIte]
  cases hI : parseItems (acc ++ [toJ e]) (skipWs T2) with
  | none => simp [parseItemsP, hI]
  | some p => simp [parseItemsP, hI]

theorem commaSep_head {α : Type} (toCh : α → List Char) (e2 : α) (es : List α)
    (X : List Char) :
    ∃ Y, commaSep ((e2 :: es).map toCh) ++ X = toCh e2 ++ Y := by
  cases es with
  | nil => exact ⟨X, by simp [commaSep]⟩
  | cons e3 es' =>
      refine ⟨',' :: commaSep ((e3 :: es').map toCh) ++ X, ?_⟩
      simp [commaSep, List.append_assoc]

theorem skipWs_quote (s : String) (r : List Char) :
    skipWs (quoteStr s ++ r) = quoteStr s ++ r := by
  rw [quoteStr, List.cons_append]
  exact skipWs_not_ws (by decide) _

theorem parseItemsP_gen {α : Type} (toCh : α → List Char) (toJ : α → Json)
    (helem : ∀ (x : α) (r : List Char), parseValueP (toCh x ++ r) = some (toJ x, r))
    (hhead : ∀ x : α, ∃ c t, toCh x = c :: t ∧ jsonWs c = false ∧ ¬c = ']') :
    ∀ (elems : List α) (e : α) (acc : List Json) (rest : List Char),
      parseItemsP acc (commaSep ((e :: elems).map toCh) ++ ']' :: rest)
        = some (acc ++ (e :: elems).map toJ, rest) := by
  intro elems
  induction elems with
  | nil =>
      intro e acc rest
      rw [List.map_cons, List.map_nil, commaSep]
      rw [parseItemsP_last toCh toJ helem]
      simp
  | cons e2 es ih =>
      intro e acc rest
      have hcs : commaSep ((e :: e2 :: es).map toCh) ++ ']' :: rest
          = toCh e ++ ',' :: (commaSep ((e2 :: es).map toCh) ++ ']' :: rest) := by
        rw [List.map_cons, List.map_cons, commaSep, ← List.map_cons]
        simp [List.append_assoc]
      rw [hcs, parseItemsP_step toCh toJ helem]
      obtain ⟨Y, hY⟩ := commaSep_head toCh e2 es (']' :: rest)
      obtain ⟨c, t, hct, hws, _⟩ := hhead e2
      rw [hY, show skipWs (toCh e2 ++ Y) = toCh e2 ++ Y from by
          rw [hct, List.cons_append]
          exact skipWs_not_ws hws _,
        ← hY, ih e2 (acc ++ [toJ e]) rest]
      simp

theorem parseArrayBodyP_empty (rest : List Char) :
    parseArrayBodyP (']' :: rest) = some (Json.arr [], rest) := by
  rw [parseArrayBodyP, parseArrayBody.eq_def]
  simp

theorem parseArrayBodyP_items {α : Type} (toCh : α → List Char) (toJ : α → Json)
    (helem : ∀ (x : α) (r : List Char), parseValueP (toCh x ++ r) = some (toJ x, r))
    (hhead : ∀ x : α, ∃ c t, toCh x = c :: t ∧ jsonWs c = false ∧ ¬c = ']')
    (e : α) (elems : List α) (rest : List Char) :
    parseArrayBodyP (commaSep ((e :: elems).map toCh) ++ ']' :: rest)
      = some (Json.arr ((e :: elems).map toJ), rest) := by
  obtain ⟨Y, hY⟩ := commaSep_head toCh e elems (']' :: rest)
  obtain ⟨c, t, hct, hws, hne⟩ := hhead e
  have hI := parseItemsP_gen toCh toJ helem hhead elems e [] rest
  rw [parseItemsP] at hI
  rw [hY, hct, List.cons_append] at hI ⊢
  rw [parseArrayBodyP, parseArrayBody.eq_def]
  simp only [if_neg hne]
  obtain ⟨pf, hIT⟩ := of_projEq hI
  simp [hIT]

theorem parseValueP_strArr (ps : List String) (rest : List Char) :
    parseValueP (stringifyStrArr ps ++ rest)
      = some (Json.arr (ps.map Json.str), rest) := by
  cases ps with
  | nil =>
      have hsk : skipWs (']' :: rest) = ']' :: rest :=
        skipWs_not_ws (by decide) rest
      have hA := parseArrayBodyP_empty rest
      rw [parseArrayBodyP, ← hsk] at hA
      obtain ⟨pf, hAB⟩ := of_projEq hA
      rw [show stringifyStrArr [] ++ rest = '[' :: ']' :: rest from rfl]
      rw [parseValueP, parseValue.eq_def]
      simp only [reduceIte]
      rw [if_neg (show ¬('[' = '"') from by decide)]
      simp [hAB]
  | cons p ps' =>
      have hsh : stringifyStrArr (p :: ps') ++ rest
          = '[' :: (commaSep ((p :: ps').map quoteStr) ++ ']' :: rest) := by
        simp [stringifyStrArr, List.append_assoc]
      obtain ⟨Y, hY⟩ := commaSep_head quoteStr p ps' (']' :: rest)
      have hid : skipWs (commaSep ((p :: ps').map quoteStr) ++ ']' :: rest)
          = commaSep ((p :: ps').map quoteStr) ++ ']' :: rest := by
        rw [hY]
        exact skipWs_quote p Y
      have hA := parseArrayBodyP_items quoteStr Json.str parseValueP_quote
        (fun s => ⟨'"', _, rfl, by decide, by decide⟩) p ps' rest
      rw [parseArrayBodyP, ← hid] at hA
      obtain ⟨pf, hAB⟩ := of_projEq hA
      rw [hsh, parseValueP, parseValue.eq_def]
      simp only [reduceIte]
      rw [if_neg (show ¬('[' = '"') from by decide)]
      simp only [List.map_cons] at hAB
      simp [hAB]

theorem skipWs_strArr (ps : List String) (r : List Char) :
    skipWs (stringifyStrArr ps ++ r) = stringifyStrArr ps ++ r := by
  rw [stringifyStrArr, List.cons_append]
  exact skipWs_not_ws (by decide) _

theorem parseMembersP_last {α : Type} (toCh : α → List Char) (toJ : α → Json)
    (helem : ∀ (x : α) (r : List Char), parseValueP (toCh x ++ r) = some (toJ x, r))
    (hid : ∀ (x : α) (r : List Char), skipWs (toCh x ++ r) = toCh x ++ r)
    (k : String) (v : α) (acc : List (String × Json)) (rest : List Char) :
    parseMembersP acc (quoteStr k ++ ':' :: (toCh v ++ Char.ofNat 125 :: rest))
      = some (acc ++ [(k, toJ v)], rest) := by
  have hq : quoteStr k ++ ':' :: (toCh v ++ Char.ofNat 125 :: rest)
      = '"' :: (k.toList.flatMap escChar
          ++ '"' :: (':' :: (toCh v ++ Char.ofNat 125 :: rest))) := by
    simp [quoteStr, List.append_assoc]
  rw [hq, parseMembersP, parseMembers.eq_def]
  simp only [reduceIte]
  have hs := strBodyP_round k.toList (':' :: (toCh v ++ Char.ofNat 125 :: rest))
  rw [strBodyP] at hs
  obtain ⟨pf1, hS⟩ := of_projEq hs
  rw [hS]
  have hsw1 := swP_eq (skipWs_not_ws (show jsonWs ':' = false by decide)
    (toCh v ++ Char.ofNat 125 :: rest))
  obtain ⟨pf2, hW1⟩ := of_projEq hsw1
  have hv := helem v (Char.ofNat 125 :: rest)
  rw [parseValueP, ← hid v (Char.ofNat 125 :: rest)] at hv
  obtain ⟨pf3, hV⟩ := of_projEq hv
  have hsw2 := swP_eq (skipWs_not_ws
    (show jsonWs (Char.ofNat 125) = false by decide) rest)
  obtain ⟨pf4, hW2⟩ := of_projEq hsw2
  simp only [hW1, reduceIte, hV, hW2,
    if_neg (show ¬(Char.ofNat 125 = ',') from by decide),
    if_pos (show Char.ofNat 125 = Char.ofNat 125 from rfl)]
  simp

theorem parseMembersP_step {α : Type} (toCh : α → List Char) (toJ : α → Json)
    (helem : ∀ (x : α) (r : List Char), parseValueP (toCh x ++ r) = some (toJ x, r))
    (hid : ∀ (x : α) (r : List Char), skipWs (toCh x ++ r) = toCh x ++ r)
    (k : String) (v : α) (acc : List (String × Json)) (T2 : List Char) :
    parseMembersP acc (quoteStr k ++ ':' :: (toCh v ++ ',' :: T2))
      = parseMembersP (acc ++ [(k, toJ v)]) (skipWs T2) := by
  have hq : quoteStr k ++ ':' :: (toCh v ++ ',' :: T2)
      = '"' :: (k.toList.flatMap escChar ++ '"' :: (':' :: (toCh v ++ ',' :: T2))) := by
    simp [quoteStr, List.append_assoc]
  conv_lhs => rw [hq, parseMembersP, parseMembers.eq_def]
  simp only [reduceIte]
  have hs := strBodyP_round k.toList (':' :: (toCh v ++ ',' :: T2))
  rw [strBodyP] at hs
  obtain ⟨pf1, hS⟩ := of_projEq hs
  rw [hS]
  have hsw1 := swP_eq (skipWs_not_ws (show jsonWs ':' = false by decide)
    (toCh v ++ ',' :: T2))
  obtain ⟨pf2, hW1⟩ := of_projEq hsw1
  have hv := helem v (',' :: T2)
  rw [parseValueP, ← hid v (',' :: T2)] at hv
  obtain ⟨pf3, hV⟩ := of_projEq hv
  have hsw2 := swP_eq (skipWs_not_ws (show jsonWs ',' = false by decide) T2)
  obtain ⟨pf4, hW2⟩ := of_projEq hsw2
  simp only [hW1, reduceIte, hV, hW2]
  cases hM : parseMembers (acc ++ [(k, toJ v)]) (skipWs T2) with
  | none => simp [parseMembersP, hM]
  | some p => simp [parseMembersP, hM]

/-- The parsed field list of one stringified saved record. -/
def savedFields (s : SavedTagInfo) : List (String × Json) :=
  [("codename", Json.str s.codename), ("name", Json.str s.name),
    ("displayName", Json.str s.displayName), ("id", Json.str s.id),
    ("parentTags", Json.arr (s.parentTags.map Json.str))]

/-- The character stream of one stringified record after its opening brace,
followed by a continuation: the shape the member parser consumes. -/
def savedBody (s : SavedTagInfo) (rest : List Char) : List Char :=
  quoteStr "codename" ++ ':' ::
   (quoteStr s.codename ++ ',' ::
    (quoteStr "name" ++ ':' ::
     (quoteStr s.name ++ ',' ::
      (quoteStr "displayName" ++ ':' ::
       (quoteStr s.displayName ++ ',' ::
        (quoteStr "id" ++ ':' ::
         (quoteStr s.id ++ ',' ::
          (quoteStr "parentTags" ++ ':' ::
           (stringifyStrArr s.parentTags ++ Char.ofNat 125 :: rest)))))))))

theorem parseMembersP_saved (s : SavedTagInfo) (rest : List Char)
    (acc : List (String × Json)) :
    parseMembersP acc (savedBody s rest) = some (acc ++ savedFields s, rest) := by
  simp only [savedBody]
  rw [parseMembersP_step quoteStr Json.str parseValueP_quote skipWs_quote "codename" s.codename]
  rw [skipWs_quote]
  rw [parseMembersP_step quoteStr Json.str parseValueP_quote skipWs_quote "name" s.name]
  rw [skipWs_quote]
  rw [parseMembersP_step quoteStr Json.str parseValueP_quote skipWs_quote "displayName" s.displayName]
  rw [skipWs_quote]
  rw [parseMembersP_step quoteStr Json.str parseValueP_quote skipWs_quote "id" s.id]
  rw [skipWs_quote]
  rw [parseMembersP_last stringifyStrArr (fun ps => Json.arr (ps.map Json.str))
    parseValueP_strArr skipWs_strArr "parentTags" s.parentTags]
  simp [savedFields]

theorem stringifySaved_body (s : SavedTagInfo) (rest : List Char) :
    stringifySaved s ++ rest = Char.ofNat 123 :: savedBody s rest := by
  simp [stringifySaved, savedBody, List.append_assoc]

theorem savedBody_cons (s : SavedTagInfo) (rest : List Char) :
    savedBody s rest = '"' ::
      (("codename".toList.flatMap escChar ++ ['"']) ++
       (':' ::
        (quoteStr s.codename ++ ',' ::
         (quoteStr "name" ++ ':' ::
          (quoteStr s.name ++ ',' ::
           (quoteStr "displayName" ++ ':' ::
            (quoteStr s.displayName ++ ',' ::
             (quoteStr "id" ++ ':' ::
              (quoteStr s.id ++ ',' ::
               (quoteStr "parentTags" ++ ':' ::
                (stringifyStrArr s.parentTags ++ Char.ofNat 125 :: rest))))))))))) := by
  simp [savedBody, quoteStr, List.append_assoc]

theorem skipWs_savedBody (s : SavedTagInfo) (rest : List Char) :
    skipWs (savedBody s rest) = savedBody s rest := by
  rw [savedBody]
  exact skipWs_quote "codename" _

theorem parseObjBodyP_saved (s : SavedTagInfo) (rest : List Char) :
    parseObjBodyP (savedBody s rest) = some (savedToJson s, rest) := by
  have hM := parseMembersP_saved s rest []
  rw [parseMembersP, savedBody_cons] at hM
  obtain ⟨pfM, hMB⟩ := of_projEq hM
  rw [parseObjBodyP, savedBody_cons, parseObjBody.eq_def]
  simp only [reduceIte]
  rw [if_neg (show ¬('"' = Char.ofNat 125) from by decide)]
  rw [hMB]
  simp [savedToJson, savedFields]

theorem parseValueP_saved (s : SavedTagInfo) (rest : List Char) :
    parseValueP (stringifySaved s ++ rest) = some (savedToJson s, rest) := by
  have hOB := parseObjBodyP_saved s rest
  rw [parseObjBodyP, ← skipWs_savedBody] at hOB
  obtain ⟨pfO, hOBs⟩ := of_projEq hOB
  rw [stringifySaved_body, parseValueP, parseValue.eq_def]
  simp only [reduceIte]
  rw [if_neg (show ¬(Char.ofNat 123 = '"') from by decide),
    if_neg (show ¬(Char.ofNat 123 = '[') from by decide)]
  simp [hOBs]

theorem parseValueP_savedArr (l : List SavedTagInfo) (rest : List Char) :
    parseValueP ('[' :: (commaSep (l.map stringifySaved) ++ ']' :: rest))
      = some (Json.arr (l.map savedToJson), rest) := by
  cases l with
  | nil =>
      have hsk : skipWs (']' :: rest) = ']' :: rest :=
        skipWs_not_ws (by decide) rest
      have hA := parseArrayBodyP_empty rest
      rw [parseArrayBodyP, ← hsk] at hA
      obtain ⟨pf, hAB⟩ := of_projEq hA
      rw [show commaSep (List.map stringifySaved []) ++ ']' :: rest = ']' :: rest from by
        simp [commaSep]]
      rw [parseValueP, parseValue.eq_def]
      simp only [reduceIte]
      rw [if_neg (show ¬('[' = '"') from by decide)]
      simp [hAB]
  | cons e es =>
      obtain ⟨Y, hY⟩ := commaSep_head stringifySaved e es (']' :: rest)
      have hid : skipWs (commaSep ((e :: es).map stringifySaved) ++ ']' :: rest)
          = commaSep ((e :: es).map stringifySaved) ++ ']' :: rest := by
        rw [hY, stringifySaved, List.cons_append]
        exact skipWs_not_ws (by decide) _
      have hA := parseArrayBodyP_items stringifySaved savedToJson parseValueP_saved
        (fun s => ⟨Char.ofNat 123, _, rfl, by decide, by decide⟩) e es rest
      rw [parseArrayBodyP, ← hid] at hA
      obtain ⟨pf, hAB⟩ := of_projEq hA
      rw [parseValueP, parseValue.eq_def]
      simp only [reduceIte]
      rw [if_neg (show ¬('[' = '"') from by decide)]
      simp only [List.map_cons] at hAB
      simp [hAB]

theorem jsonParse_of_parseValueP {s : String} {v : Json}
    (h : parseValueP (skipWs s.toList) = some (v, ([] : List Char))) :
    jsonParse s = some v := by
  rw [parseValueP] at h
  obtain ⟨pf, hs⟩ := of_projEq h
  rw [jsonParse, hs]
  simp [skipWs]

theorem jsonParse_serialize (tags : List Tag) :
    jsonParse (serializeSelection tags)
      = some (Json.arr ((formatTagsForSaving tags).map savedToJson)) := by
  apply jsonParse_of_parseValueP
  rw [show (serializeSelection tags).toList
      = '[' :: (commaSep ((formatTagsForSaving tags).map stringifySaved)
        ++ ']' :: ([] : List Char)) from rfl]
  rw [skipWs_not_ws (by decide)]
  exact parseValueP_savedArr (formatTagsForSaving tags) []

theorem jsMemberCodename_savedToJson (s : SavedTagInfo) :
    jsMemberCodename (savedToJson s) = some (Json.str s.codename) := by
  simp [savedToJson, jsMemberCodename, objLookupLast, List.filter]

theorem mapM_loop_savedToJson (l : List SavedTagInfo) (acc : List Json) :
    List.mapM.loop jsMemberCodename (l.map savedToJson) acc
      = some (acc.reverse ++ l.map (fun s => Json.str s.codename)) := by
  induction l generalizing acc with
  | nil => simp [List.mapM.loop]
  | cons s l ih =>
      simp [List.mapM.loop, jsMemberCodename_savedToJson s, ih]

theorem mapM_savedToJson_codename (l : List SavedTagInfo) :
    (l.map savedToJson).mapM jsMemberCodename
      = some (l.map (fun s => Json.str s.codename)) := by
  simp [List.mapM, mapM_loop_savedToJson l []]

theorem parseInitialValue_savedArr (l : List SavedTagInfo) (v : String)
    (hv : jsonParse v = some (Json.arr (l.map savedToJson)))
    (h : ∀ s, l.head? = some s → s.codename ≠ "") :
    parseInitialValue v = l.map (fun s => Json.str s.codename) := by
  rw [parseInitialValue.eq_def, hv]
  cases l with
  | nil => simp
  | cons s l =>
      simp only [List.map_cons]
      have hm := mapM_savedToJson_codename (s :: l)
      simp only [List.map_cons] at hm
      have hm2 := mapM_loop_savedToJson (s :: l) []
      simp only [List.map_cons, List.reverse_nil, List.nil_append] at hm2
      have ht : jsTruthy (Json.str s.codename) = true := by
        simp [jsTruthy]
        exact h s rfl
      simp [jsMemberCodename_savedToJson s, ht, hm, hm2,
        show jsTypeofObject (savedToJson s) = true from rfl]

/-- C4 counterexample: the selection consisting of one tag whose codename is
the empty string serializes to the current format, but on re-parsing the
first element has a falsy `codename` member (the empty string), so
`parseInitialValue` takes the legacy branch and returns the parsed objects
themselves rather than the claimed codename projection. -/
theorem claimC4_counterexample :
    parseInitialValue (serializeSelection [mkTag "" []])
      ≠ [mkTag "" []].map (fun t => Json.str t.codename) := by
  have hv := jsonParse_serialize [mkTag "" []]
  have hval : parseInitialValue (serializeSelection [mkTag "" []])
      = [savedToJson (SavedTagInfo.mk "" "" "" "" [])] := by
    rw [parseInitialValue.eq_def, hv]
    rfl
  rw [hval]
  simp [savedToJson, mkTag]

/-- C4 (amended): for every selection whose first tag (if any) has a
non-empty codename, parsing the serialized saved value yields exactly the
codenames of the selected tags, as strings, in the original order; the empty
selection round-trips to the empty sequence.  The non-empty-codename guard
is needed because the code tests truthiness of the first parsed codename
and an empty string is falsy in JavaScript. -/
theorem claimC4_amended (sel : List Tag)
    (h : ∀ t, sel.head? = some t → t.codename ≠ "") :
    parseInitialValue (serializeSelection sel)
      = sel.map (fun t => Json.str t.codename) := by
  have hh : ∀ s, (formatTagsForSaving sel).head? = some s → s.codename ≠ "" := by
    cases sel with
    | nil => intro s hs; simp [formatTagsForSaving] at hs
    | cons t ts =>
        intro s hs
        simp only [formatTagsForSaving, List.map_cons, List.head?_cons,
          Option.some.injEq] at hs
        have := h t rfl
        rw [← hs]
        exact this
  have := parseInitialValue_savedArr (formatTagsForSaving sel)
    (serializeSelection sel) (jsonParse_serialize sel) hh
  rw [this]
  simp [formatTagsForSaving]

/-- Witness for the amended C4 at a concrete selection of one tag with a
non-empty codename: the round trip recovers the codename as a string. -/
theorem claimC4_amended_witness :
    parseInitialValue (serializeSelection [mkTag "a" []]) = [Json.str "a"] :=
  claimC4_amended [mkTag "a" []] (fun t ht => by
    simp only [List.head?_cons, Option.some.injEq] at ht
    rw [← ht]
    decide)

theorem jsonParse_notJson : jsonParse "\x7bnot json" = none := by
  have h1 : ("\x7bnot json").toList
      = Char.ofNat 123 :: 'n' :: 'o' :: 't' :: ' ' :: 'j' :: 's' :: 'o' :: 'n' :: [] := rfl
  have hm : parseMembers ([] : List (String × Json))
      ('n' :: 'o' :: 't' :: ' ' :: 'j' :: 's' :: 'o' :: 'n' :: []) = none := by
    rw [parseMembers.eq_def]
    simp only [reduceIte, if_neg (show ¬('n' = '"') from by decide)]
  have ho : parseObjBody ('n' :: 'o' :: 't' :: ' ' :: 'j' :: 's' :: 'o' :: 'n' :: [])
      = none := by
    rw [parseObjBody.eq_def]
    simp only [reduceIte, if_neg (show ¬('n' = Char.ofNat 125) from by decide)]
    rw [hm]
  have ho2 : parseObjBody (skipWs ('n' :: 'o' :: 't' :: ' ' :: 'j' :: 's' :: 'o' :: 'n' :: []))
      = none := by
    rw [skipWs_not_ws (by decide)]
    exact ho
  have hv : parseValue (Char.ofNat 123 :: 'n' :: 'o' :: 't' :: ' ' :: 'j' :: 's' :: 'o' :: 'n' :: [])
      = none := by
    rw [parseValue.eq_def]
    simp only [reduceIte]
    rw [if_neg (show ¬(Char.ofNat 123 = '"') from by decide),
      if_neg (show ¬(Char.ofNat 123 = '[') from by decide)]
    rw [ho2]
  have hv2 : parseValue (skipWs (("\x7bnot json").toList)) = none := by
    rw [h1, skipWs_not_ws (by decide)]
    exact hv
  rw [jsonParse, hv2]

/-- C8: on any input that fails JSON decoding, `parseInitialValue` returns
the raw input as a single bare codename rather than throwing or yielding an
empty result. -/
theorem claimC8 (v : String) (h : jsonParse v = none) :
    parseInitialValue v = [Json.str v] := by
  rw [parseInitialValue.eq_def, h]

/-- Witness for C8 at the concrete malformed input of the specification: a
string opening a brace and nothing well-formed after it fails to decode, and
the fallback returns it as one bare codename. -/
theorem claimC8_witness :
    jsonParse "\x7bnot json" = none ∧
      parseInitialValue "\x7bnot json" = [Json.str "\x7bnot json"] :=
  ⟨jsonParse_notJson, claimC8 "\x7bnot json" jsonParse_notJson⟩

theorem jsonParse_empty : jsonParse "" = none := by
  have hv : parseValue (skipWs (("").toList)) = none := by
    rw [show skipWs (("").toList) = [] from rfl, parseValue.eq_def]
  rw [jsonParse, hv]

/-- C9 counterexample: the bare utility applied to the empty string does not
yield the empty sequence: the empty string fails JSON decoding, so the catch
branch returns the raw (empty) string as a single bare codename. -/
theorem claimC9_counterexample :
    parseInitialValue "" = [Json.str ""] ∧ parseInitialValue "" ≠ [] := by
  have h : parseInitialValue "" = [Json.str ""] := by
    rw [parseInitialValue.eq_def, jsonParse_empty]
  exact ⟨h, by rw [h]; simp⟩

/-- C9 (amended): the application initializes an empty selection from the
empty saved value only because the component guards the parse behind
JavaScript truthiness of the value: the guarded initialization yields the
empty sequence, while the bare `parseInitialValue` utility applied to the
empty string returns the raw empty string as one bare codename. -/
theorem claimC9_amended :
    initCodenames "" = [] ∧ parseInitialValue "" = [Json.str ""] := by
  constructor
  · rw [initCodenames]
    simp
  · rw [parseInitialValue.eq_def, jsonParse_empty]
